import Mathlib

/-!
# Verification of the mandelborder computation core

This development gives a shallow embedding of the computation core of the
mandelborder repository (escape-time kernels, viewport math, tile scheduler,
border-tracing flood fill, SIMD batching, interesting-point chooser) and
proves the specification's testable properties against it.

Modelling conventions:
* C++ `double` is embedded as `ℚ`: every floating-point expression of the
  source is transcribed operation-for-operation into exact rational
  arithmetic (same operands, same order).
* C++ `int` / `unsigned` values that are provably non-negative are embedded
  as `ℕ`; values that can go negative (chooser rectangle corners, diversity
  scores) as `ℤ`.
* `std::vector` buffers are embedded as `Array`, with `Array.getD` /
  `Array.setD` for element access (in bounds these agree with the C++
  accesses; the border-tracing safety theorem proves the relevant indices
  are in bounds).
* `rand()` is embedded as an oracle `ℕ → ℕ` indexed by the number of calls
  made so far.
-/

namespace Mandelborder

/-- `MandelbrotCalculator::MAX_ITER` (mandelbrot_calculator.h). -/
def MAX_ITER : ℕ := 768

/-!
## Shared escape-time kernel

`StandardMandelbrotCalculator::iterate` (and the identical
`BorderMandelbrotCalculator::iterate`): starting from z₀ = c = (x, y),
repeat `r2 = r*r; i2 = i*i; if (r2+i2 >= 4.0) break; ri = r*i;
i = ri + ri + y; r = r2 - i2 + x;` for at most `MAX_ITER` steps and
return the loop counter at the break (or `MAX_ITER`).

`iterGo x y fuel r i` is the loop with `fuel` iterations remaining and
current state `(r, i)`; it returns the number of additional updates
performed before the escape test fires.
-/

/-- The loop body of `iterate`, fuel-indexed.  Returns the number of
iterations executed from state `(r, i)` before `r*r + i*i ≥ 4` is first
observed, capped at `fuel`. -/
def iterGo (x y : ℚ) : ℕ → ℚ → ℚ → ℕ
  | 0, _, _ => 0
  | fuel + 1, r, i =>
    let r2 := r * r
    let i2 := i * i
    if 4 ≤ r2 + i2 then 0
    else
      let ri := r * i
      1 + iterGo x y fuel (r2 - i2 + x) (ri + ri + y)

/-- `StandardMandelbrotCalculator::iterate(x, y)`:
the full escape-time function with `MAX_ITER` fuel, starting at z₀ = c. -/
def iterate (x y : ℚ) : ℕ := iterGo x y MAX_ITER x y

/-- One update z ← z² + c written as a map on pairs (the same arithmetic as
the loop body of `iterate`). -/
def zstep (x y : ℚ) (z : ℚ × ℚ) : ℚ × ℚ :=
  (z.1 * z.1 - z.2 * z.2 + x, z.1 * z.2 + z.1 * z.2 + y)

/-- The orbit z₀ = c, z_{k+1} = z_k² + c recorded by the kernels. -/
def zseq (x y : ℚ) (k : ℕ) : ℚ × ℚ := (zstep x y)^[k] (x, y)

/-- Squared magnitude |z|². -/
def normSq (z : ℚ × ℚ) : ℚ := z.1 * z.1 + z.2 * z.2

/-!
## Viewport coordinate mapping

`ZoomMandelbrotCalculator` (zoom_mandelbrot_calculator.h /
border_mandelbrot_calculator.h implementation file): pixel grid size plus
complex-plane bounds, with `updateBounds` (aspect-preserving) and
`updateBoundsExplicit` (exact rectangle).
-/

/-- The view-parameter state of `ZoomMandelbrotCalculator`. -/
structure Viewport where
  width : ℕ
  height : ℕ
  cre : ℚ
  cim : ℚ
  diam : ℚ
  minr : ℚ
  mini : ℚ
  maxr : ℚ
  maxi : ℚ
  stepr : ℚ
  stepi : ℚ
deriving DecidableEq

/-- `ZoomMandelbrotCalculator::updateBounds(cre, cim, diam)`. -/
def updateBounds (vp : Viewport) (new_cre new_cim new_diam : ℚ) : Viewport :=
  let cre := new_cre
  let cim := new_cim
  let diam := new_diam
  let minr := cre - diam * (1/2) * (vp.width : ℚ) / (vp.height : ℚ)
  let mini := cim - diam * (1/2)
  let maxr := cre + diam * (1/2) * (vp.width : ℚ) / (vp.height : ℚ)
  let maxi := cim + diam * (1/2)
  { vp with
    cre := cre, cim := cim, diam := diam
    minr := minr, mini := mini, maxr := maxr, maxi := maxi
    stepr := (maxr - minr) / (vp.width : ℚ)
    stepi := (maxi - mini) / (vp.height : ℚ) }

/-- `ZoomMandelbrotCalculator::updateBoundsExplicit(minR, minI, maxR, maxI)`. -/
def updateBoundsExplicit (vp : Viewport) (new_minr new_mini new_maxr new_maxi : ℚ) :
    Viewport :=
  let minr := new_minr
  let mini := new_mini
  let maxr := new_maxr
  let maxi := new_maxi
  { vp with
    minr := minr, mini := mini, maxr := maxr, maxi := maxi
    cre := (minr + maxr) / 2
    cim := (mini + maxi) / 2
    diam := max (maxr - minr) (maxi - mini)
    stepr := (maxr - minr) / (vp.width : ℚ)
    stepi := (maxi - mini) / (vp.height : ℚ) }

/-- The `ZoomMandelbrotCalculator(w, h)` constructor: all view parameters are
established by the default `updateBounds(-0.5, 0.0, 3.0)` call. -/
def mkViewport (w h : ℕ) : Viewport :=
  updateBounds
    { width := w, height := h, cre := 0, cim := 0, diam := 0,
      minr := 0, mini := 0, maxr := 0, maxi := 0, stepr := 0, stepi := 0 }
    (-(1/2)) 0 3

/-!
## Standard kernel

`StandardMandelbrotCalculator::compute`: a row-major scalar loop storing
`data[y*width + x] = iterate(minr + x*stepr, mini + y*stepi)`.  Each pixel
is written exactly once and the iterations are independent, so the final
buffer is embedded directly as the indexed image of the pixel function
(index p has x = p % width, y = p / width).
-/

/-- The escape value of pixel index p (row-major: x = p % width, y = p / width),
`iterate(minr + x * stepr, mini + y * stepi)` — the expression used at every
kernel's `iterate` call site (`StandardMandelbrotCalculator::compute`,
`BorderMandelbrotCalculator::load`). -/
def pixelFun (vp : Viewport) (p : ℕ) : ℕ :=
  iterate (vp.minr + (p % vp.width : ℕ) * vp.stepr)
          (vp.mini + (p / vp.width : ℕ) * vp.stepi)

/-- Final `data` buffer produced by `StandardMandelbrotCalculator::compute`. -/
def standardCompute (vp : Viewport) : Array ℕ :=
  (Array.range (vp.width * vp.height)).map (pixelFun vp)

/-!
## Tile geometry (spec §4.6, `GridMandelbrotCalculator::calculateTileGeometry`)

Pixel boundaries of tile (row, col) in a rows×cols grid over a
width×height viewport, by integer floor division.
-/

/-- `tile.startX = (col * width) / gridCols`. -/
def tileStartX (width cols col : ℕ) : ℕ := col * width / cols

/-- `endX = ((col + 1) * width) / gridCols`. -/
def tileEndX (width cols col : ℕ) : ℕ := (col + 1) * width / cols

/-- `tile.startY = (row * height) / gridRows`. -/
def tileStartY (height rows row : ℕ) : ℕ := row * height / rows

/-- `endY = ((row + 1) * height) / gridRows`. -/
def tileEndY (height rows row : ℕ) : ℕ := (row + 1) * height / rows

/-- Pixel (x, y) lies in the pixel rectangle of tile (row, col). -/
def pixelInTile (width height rows cols row col x y : ℕ) : Prop :=
  tileStartX width cols col ≤ x ∧ x < tileEndX width cols col ∧
  tileStartY height rows row ≤ y ∧ y < tileEndY height rows row

instance (width height rows cols row col x y : ℕ) :
    Decidable (pixelInTile width height rows cols row col x y) := by
  unfold pixelInTile; infer_instance

/-!
## Tile scheduler dispatch (`GridMandelbrotCalculator::compute`)

The scheduler chooses the parallel (worker-thread) path only under
`speedMode && engineType != EngineType::GPUF && engineType != EngineType::GPUD`;
otherwise it computes all `gridRows * gridCols` tiles sequentially, in
row-major tile order, on the calling thread.
-/

/-- `GridMandelbrotCalculator::EngineType`. -/
inductive EngineType where
  | BORDER
  | STANDARD
  | SIMD
  | GPUF
  | GPUD
deriving DecidableEq

/-- The branch condition of `GridMandelbrotCalculator::compute` selecting the
parallel (multithreaded) mode. -/
def parallelMode (speedMode : Bool) (engineType : EngineType) : Bool :=
  speedMode && decide (engineType ≠ EngineType.GPUF)
            && decide (engineType ≠ EngineType.GPUD)

/-- The tile indices computed by the sequential branch of
`GridMandelbrotCalculator::compute` (`for tileIdx = 0; tileIdx < gridRows*gridCols`),
in order. -/
def sequentialTileOrder (gridRows gridCols : ℕ) : List ℕ :=
  List.range (gridRows * gridCols)

/-- Grid dimensions chosen by the app shell (`MandelbrotApp`, mandelbrot_app.cpp):
GPU engines always get a 1×1 grid; otherwise speed mode gets 4×4 and normal
mode 1×1. -/
def appGridDims (engineType : EngineType) (speedMode : Bool) : ℕ × ℕ :=
  if engineType = EngineType.GPUF ∨ engineType = EngineType.GPUD then (1, 1)
  else if speedMode then (4, 4) else (1, 1)

/-!
## Interesting-point chooser (`ZoomPointChooser`, zoom_point_chooser.cpp)

`rand()` is modelled by an oracle `rnd : ℕ → ℕ` indexed by the number of
`rand()` calls made so far (the `rcalls` counter).  `std::sort` with the
`score >` comparator is modelled by an insertion sort on descending score
(the C++ sort is unstable, so any score-sorted permutation is a faithful
model).  `(int)(candidates.size() * 0.2)` equals `size * 2 / 10` for every
size reachable here (size ≤ 100; the double product `size * 0.2` never
rounds across an integer for such sizes).
-/

/-- `ZoomPointChooser::getIterationRange`: min/max iteration count strictly
below `maxIter` inside the given rectangle clamped to the field;
`outMin` starts at `maxIter` and `outMax` at 0. -/
def getIterationRange (data : Array ℕ) (width maxIter : ℕ) (height : ℕ)
    (x y w h : ℤ) : ℕ × ℕ :=
  let x1 := max 0 x
  let y1 := max 0 y
  let x2 := min (width : ℤ) (x + w)
  let y2 := min (height : ℤ) (y + h)
  (List.range (y2 - y1).toNat).foldl (fun acc ky =>
    (List.range (x2 - x1).toNat).foldl (fun acc kx =>
      let py := y1.toNat + ky
      let px := x1.toNat + kx
      let iter := data.getD (py * width + px) 0
      if iter < maxIter then
        (if iter < acc.1 then iter else acc.1, if acc.2 < iter then iter else acc.2)
      else acc) acc) (maxIter, 0)

/-- `ZoomPointChooser::calculateDiversityScore`:
score = (max - min) * max over the rectangle centred on (centerX, centerY). -/
def calculateDiversityScore (data : Array ℕ) (width maxIter : ℕ) (height : ℕ)
    (centerX centerY rectWidth rectHeight : ℕ) : ℤ :=
  let x : ℤ := (centerX : ℤ) - ((rectWidth / 2 : ℕ) : ℤ)
  let y : ℤ := (centerY : ℤ) - ((rectHeight / 2 : ℕ) : ℤ)
  let mm := getIterationRange data width maxIter height x y (rectWidth : ℤ) (rectHeight : ℤ)
  ((mm.2 : ℤ) - (mm.1 : ℤ)) * (mm.2 : ℤ)

/-- First pass of `ZoomPointChooser::findInterestingPoint`: the largest
iteration count strictly below `maxIter`, 0 if there is none. -/
def maxIterBelow (data : Array ℕ) (width height maxIter : ℕ) : ℕ :=
  (List.range height).foldl (fun acc y =>
    (List.range width).foldl (fun acc x =>
      let iter := data.getD (y * width + x) 0
      if iter < maxIter ∧ acc < iter then iter else acc) acc) 0

/-- Reservoir-sampling state of the second pass (`sampledPoints`, the running
candidate `count`, and the number of `rand()` calls made so far). -/
structure Reservoir where
  samples : List (ℕ × ℕ)
  count : ℕ
  rcalls : ℕ

/-- One candidate visit of the reservoir-sampling loop (capacity 100). -/
def reservoirVisit (rnd : ℕ → ℕ) (st : Reservoir) (xy : ℕ × ℕ) : Reservoir :=
  let count := st.count + 1
  if st.samples.length < 100 then
    { st with samples := st.samples ++ [xy], count := count }
  else
    let j := rnd st.rcalls % count
    if j < 100 then
      { samples := st.samples.set j xy, count := count, rcalls := st.rcalls + 1 }
    else
      { st with count := count, rcalls := st.rcalls + 1 }

/-- The full second pass: visit every pixel with
`iter >= threshold && iter < maxIter` in row-major order. -/
def gatherSamples (rnd : ℕ → ℕ) (data : Array ℕ) (width height maxIter : ℕ)
    (threshold : ℤ) : Reservoir :=
  (List.range height).foldl (fun st y =>
    (List.range width).foldl (fun st x =>
      let iter := data.getD (y * width + x) 0
      if threshold ≤ (iter : ℤ) ∧ iter < maxIter then reservoirVisit rnd st (x, y)
      else st) st) ⟨[], 0, 0⟩

/-- Insertion into a list kept sorted by descending score. -/
def insertDesc (c : ℕ × ℕ × ℤ) : List (ℕ × ℕ × ℤ) → List (ℕ × ℕ × ℤ)
  | [] => [c]
  | d :: ds => if d.2.2 < c.2.2 then c :: d :: ds else d :: insertDesc c ds

/-- Sort candidates by descending score (model of the `std::sort` call). -/
def sortByScoreDesc : List (ℕ × ℕ × ℤ) → List (ℕ × ℕ × ℤ)
  | [] => []
  | c :: cs => insertDesc c (sortByScoreDesc cs)

/-- `ZoomPointChooser::findInterestingPoint`: returns
(found, outX, outY). -/
def findInterestingPoint (rnd : ℕ → ℕ) (data : Array ℕ)
    (width height maxIter zoomRectWidth zoomRectHeight : ℕ) : Bool × ℕ × ℕ :=
  let maxIterFound := maxIterBelow data width height maxIter
  if maxIterFound = 0 then (false, width / 2, height / 2)
  else
    let threshold : ℤ := (maxIterFound : ℤ) - 5
    let rs := gatherSamples rnd data width height maxIter threshold
    if rs.samples.isEmpty then (false, width / 2, height / 2)
    else
      let candidates := rs.samples.filterMap fun xy =>
        let score := calculateDiversityScore data width maxIter height xy.1 xy.2
          zoomRectWidth zoomRectHeight
        if 0 < score then some (xy.1, xy.2, score) else none
      if candidates.isEmpty then (false, width / 2, height / 2)
      else
        let sorted := sortByScoreDesc candidates
        let topCount := max 1 (candidates.length * 2 / 10)
        let idx := rnd rs.rcalls % topCount
        let c := sorted.getD idx (0, 0, 0)
        (true, c.1, c.2.1)

/-!
## Border-tracing kernel (`BorderMandelbrotCalculator`)

State: the `data` buffer, a `done` flag byte per pixel with the two bits
LOADED and QUEUED (modelled as a two-field structure), a ring-buffer work
queue of size width*height + 1 with `queueHead`/`queueTail` cursors.

The per-pixel escape computation `iterate(minr + x*stepr, mini + y*stepi)`
performed by `load` is abstracted as the argument `pixelValue : ℕ → ℕ`;
`borderCompute` instantiates it with exactly that expression (`pixelFun`).
All other state is natural-number arithmetic.

`compute()`'s drain loop (`while (queueTail != queueHead)`) is embedded
fuel-indexed; `drainLoop_reaches_empty` below proves the loop performs at
most `2 * width * height` iterations, so fuel `2 * width * height + 1`
makes the embedding equal to the unbounded C++ loop.
-/

/-- The two bits of a `done` flag byte (`LOADED = 1`, `QUEUED = 2`). -/
structure Flags where
  loaded : Bool
  queued : Bool
deriving DecidableEq, Inhabited, Repr

/-- Mutable state of `BorderMandelbrotCalculator`. -/
structure BState where
  data : Array ℕ
  done : Array Flags
  queue : Array ℕ
  queueHead : ℕ
  queueTail : ℕ
deriving DecidableEq

/-- `BorderMandelbrotCalculator::addQueue(p)`: skip if the QUEUED bit is
set; otherwise set it, write p at `queueHead`, advance `queueHead` with
wrap-around at `queue.size()`. -/
def addQueue (st : BState) (p : ℕ) : BState :=
  if (st.done.getD p default).queued then st
  else
    let done := st.done.setD p { st.done.getD p default with queued := true }
    let queue := st.queue.setD st.queueHead p
    let h := st.queueHead + 1
    { st with done := done, queue := queue,
              queueHead := if h = queue.size then 0 else h }

/-- `BorderMandelbrotCalculator::load(p)`: memoized pixel computation —
return `data[p]` if LOADED, otherwise compute the pixel value, set LOADED
and store it. -/
def load (pixelValue : ℕ → ℕ) (st : BState) (p : ℕ) : BState × ℕ :=
  if (st.done.getD p default).loaded then (st, st.data.getD p 0)
  else
    let result := pixelValue p
    let done := st.done.setD p { st.done.getD p default with loaded := true }
    ({ st with done := done, data := st.data.setD p result }, result)

/-- One short-circuited neighbour comparison of `scan`
(`bool l = ll && load(p - 1) != center;`). -/
def loadDiff (pixelValue : ℕ → ℕ) (st : BState) (cond : Bool) (q : ℕ)
    (center : ℕ) : BState × Bool :=
  if cond then
    let r := load pixelValue st q
    (r.1, decide (r.2 ≠ center))
  else (st, false)

/-- `BorderMandelbrotCalculator::scan(p)`: load p and its in-bounds
orthogonal neighbours, enqueue every differing orthogonal neighbour, and
enqueue a diagonal neighbour when it is in bounds and one of the two
orthogonal neighbours sharing its corner differs. -/
def scan (w h : ℕ) (pixelValue : ℕ → ℕ) (st : BState) (p : ℕ) : BState :=
  let x := p % w
  let y := p / w
  let c := load pixelValue st p
  let st := c.1
  let center := c.2
  let ll : Bool := decide (1 ≤ x)
  let rr : Bool := decide (x < w - 1)
  let uu : Bool := decide (1 ≤ y)
  let dd : Bool := decide (y < h - 1)
  let rl := loadDiff pixelValue st ll (p - 1) center
  let st := rl.1
  let l := rl.2
  let rr2 := loadDiff pixelValue st rr (p + 1) center
  let st := rr2.1
  let r := rr2.2
  let ru := loadDiff pixelValue st uu (p - w) center
  let st := ru.1
  let u := ru.2
  let rd := loadDiff pixelValue st dd (p + w) center
  let st := rd.1
  let d := rd.2
  let st := if l then addQueue st (p - 1) else st
  let st := if r then addQueue st (p + 1) else st
  let st := if u then addQueue st (p - w) else st
  let st := if d then addQueue st (p + w) else st
  let st := if (uu && ll) && (l || u) then addQueue st (p - w - 1) else st
  let st := if (uu && rr) && (r || u) then addQueue st (p - w + 1) else st
  let st := if (dd && ll) && (l || d) then addQueue st (p + w - 1) else st
  let st := if (dd && rr) && (r || d) then addQueue st (p + w + 1) else st
  st

/-- FIFO dequeue (`p = queue[queueTail++]`, wrapping at `queue.size()`). -/
def dequeueTail (st : BState) : BState × ℕ :=
  let p := st.queue.getD st.queueTail 0
  let t := st.queueTail + 1
  ({ st with queueTail := if t = st.queue.size then 0 else t }, p)

/-- LIFO dequeue (`if (queueHead == 0) queueHead = queue.size();
p = queue[--queueHead];`). -/
def dequeueHead (st : BState) : BState × ℕ :=
  let h := (if st.queueHead = 0 then st.queue.size else st.queueHead) - 1
  ({ st with queueHead := h }, st.queue.getD h 0)

/-- One iteration of the drain loop
(`if (queueHead <= queueTail || ++flag & 3)` takes the FIFO branch,
otherwise the LIFO branch; `flag` is incremented exactly when
`queueHead > queueTail`).  Returns the new state and the new flag. -/
def drainStep (w h : ℕ) (pixelValue : ℕ → ℕ) (st : BState) (flag : ℕ) :
    BState × ℕ :=
  if st.queueHead ≤ st.queueTail then
    let r := dequeueTail st
    (scan w h pixelValue r.1 r.2, flag)
  else
    let flag := flag + 1
    if flag % 4 ≠ 0 then
      let r := dequeueTail st
      (scan w h pixelValue r.1 r.2, flag)
    else
      let r := dequeueHead st
      (scan w h pixelValue r.1 r.2, flag)

/-- The drain loop `while (queueTail != queueHead)`, fuel-indexed. -/
def drainLoop (w h : ℕ) (pixelValue : ℕ → ℕ) : ℕ → BState → ℕ → BState
  | 0, st, _ => st
  | fuel + 1, st, flag =>
    if st.queueTail = st.queueHead then st
    else
      let r := drainStep w h pixelValue st flag
      drainLoop w h pixelValue fuel r.1 r.2

/-- Border seeding of `compute()`: enqueue both full edge columns for every
row, then both full edge rows for x = 1 .. width-2. -/
def seedQueue (w h : ℕ) (st : BState) : BState :=
  let st := (List.range h).foldl (fun st y =>
    addQueue (addQueue st (y * w + 0)) (y * w + (w - 1))) st
  (List.range' 1 (w - 2)).foldl (fun st x =>
    addQueue (addQueue st (0 * w + x)) ((h - 1) * w + x)) st

/-- One step of the forward-fill pass: if pixel p is LOADED and pixel p+1 is
not, copy p's value into p+1 and mark it LOADED. -/
def fillStep (st : BState) (p : ℕ) : BState :=
  if (st.done.getD p default).loaded ∧ ¬ (st.done.getD (p + 1) default).loaded then
    { st with data := st.data.setD (p + 1) (st.data.getD p 0),
              done := st.done.setD (p + 1)
                { st.done.getD (p + 1) default with loaded := true } }
  else st

/-- The forward-fill pass of `compute()`: for p = 0 .. width*height - 2,
copy a LOADED pixel's value into an un-LOADED successor. -/
def forwardFill (n : ℕ) (st : BState) : BState :=
  (List.range (n - 1)).foldl fillStep st

/-- The state of `BorderMandelbrotCalculator` at the start of `compute()`
after `data.assign(w*h, 0)`: flags cleared (constructor / `reset()`),
cursors 0, ring buffer of size w*h + 1. -/
def initState (w h : ℕ) : BState :=
  { data := Array.mkArray (w * h) 0,
    done := Array.mkArray (w * h) default,
    queue := Array.mkArray (w * h + 1) 0,
    queueHead := 0, queueTail := 0 }

/-- `BorderMandelbrotCalculator::compute` from the constructed / reset state
(`done` all clear, cursors 0), beginning with `data.assign(w*h, 0)`. -/
def borderComputeCore (w h : ℕ) (pixelValue : ℕ → ℕ) : BState :=
  forwardFill (w * h)
    (drainLoop w h pixelValue (2 * (w * h) + 1) (seedQueue w h (initState w h)) 0)

/-- `BorderMandelbrotCalculator::compute` on a viewport: the pixel values
are `iterate(minr + x*stepr, mini + y*stepi)`. -/
def borderCompute (vp : Viewport) : BState :=
  borderComputeCore vp.width vp.height (pixelFun vp)

/-- Number of pixels with the QUEUED bit set. -/
def numQueued (n : ℕ) (st : BState) : ℕ :=
  ((Finset.range n).filter fun p => (st.done.getD p default).queued = true).card

/-- Termination measure of the drain loop. -/
def bMeasure (n : ℕ) (st : BState) : ℕ :=
  2 * (n - numQueued n st) + (st.queueHead - st.queueTail)

/-- Core safety invariant of the border-tracing state. -/
structure BInv0 (n : ℕ) (st : BState) : Prop where
  qsize : st.queue.size = n + 1
  dsize : st.done.size = n
  datasize : st.data.size = n
  tail_le : st.queueTail ≤ st.queueHead
  head_le : st.queueHead ≤ numQueued n st
  seg : ∀ i, st.queueTail ≤ i → i < st.queueHead →
    st.queue.getD i 0 < n ∧ (st.done.getD (st.queue.getD i 0) default).queued = true

/-- Pixel p is stored in the active segment of the ring buffer. -/
def inSeg (st : BState) (p : ℕ) : Prop :=
  ∃ i, st.queueTail ≤ i ∧ i < st.queueHead ∧ st.queue.getD i 0 = p

/-- Every queued pixel is loaded, still in the queue, or excused by E. -/
def QmemE (n : ℕ) (st : BState) (E : ℕ → Prop) : Prop :=
  ∀ p, p < n → (st.done.getD p default).queued = true →
    (st.done.getD p default).loaded = true ∨ inSeg st p ∨ E p

/-- The done-flag bits only ever grow from st to st'. -/
def doneLe (st st' : BState) : Prop :=
  ∀ p, ((st.done.getD p default).queued = true →
          (st'.done.getD p default).queued = true) ∧
       ((st.done.getD p default).loaded = true →
          (st'.done.getD p default).loaded = true)

/-- Properties preserved by every atomic step inside `scan`. -/
def StepOK (n : ℕ) (st st' : BState) : Prop :=
  (BInv0 n st → BInv0 n st') ∧
  st'.queueTail = st.queueTail ∧
  (BInv0 n st → bMeasure n st' ≤ bMeasure n st) ∧
  doneLe st st' ∧
  (∀ E : ℕ → Prop, BInv0 n st → QmemE n st E → QmemE n st' E)

/-!
### The drain loop as a step trajectory (for the dequeue policy and the
ring-buffer safety statements)
-/

/-- One iteration of the `while (queueTail != queueHead)` loop as a map on
(state, flag); the identity once the queue is empty. -/
def drainIter (w h : ℕ) (f : ℕ → ℕ) (s : BState × ℕ) : BState × ℕ :=
  if s.1.queueTail = s.1.queueHead then s else drainStep w h f s.1 s.2

/-- The (state, flag) pair after k iterations of the drain loop of
`compute()` on a w×h tile, starting from the freshly seeded queue with
`flag = 0`. -/
def drainState (w h : ℕ) (f : ℕ → ℕ) (k : ℕ) : BState × ℕ :=
  (drainIter w h f)^[k] (seedQueue w h (initState w h), 0)

/-- The dequeue-end decision of one drain iteration, transcribing
`if (queueHead <= queueTail || ++flag & 3)` — FIFO (tail) unless
`queueHead > queueTail` and the incremented flag is divisible by 4, in
which case the dequeue takes from the head (LIFO). -/
def takesFromHead (st : BState) (flag : ℕ) : Bool :=
  if st.queueHead ≤ st.queueTail then false
  else decide ((flag + 1) % 4 = 0)

/-!
## Cross-engine comparison (C1)

The Border-tracing kernel is NOT pixel-for-pixel identical to the Standard
kernel on every viewport: a pixel of different escape count that is
surrounded by two full rings of equal-count pixels is never reached by the
boundary tracing, and the forward-fill pass smears its left neighbour's
value over it.  The 5×5 viewport `vp5` below (bounds set through
`updateBoundsExplicit(-6.1, -8, 13.9, 12)`, hence stepr = stepi = 4)
realises this: all 24 outer pixels map to points with |c|² ≥ 4 (escape
count 0), while the centre pixel (2,2) maps to c = (1.9, 0) with escape
count 1.  The Standard kernel stores 1 there; the Border kernel stores 0.
-/

/-- A 5×5 viewport whose centre pixel is an escape-count island invisible
to boundary tracing. -/
def vp5 : Viewport :=
  updateBoundsExplicit (mkViewport 5 5) (-(61/10)) (-8) (139/10) 12

/-!
## SIMD kernel (`SimdMandelbrotCalculator::compute`)

Batches of BATCH_SIZE = 8 lanes; every lane carries its own constants,
z-state, iteration counter and active mask.  The inner loop updates all
lanes branchlessly (using the freshly updated mask), and the MAX_ITER loop
breaks early only when every lane is inactive.  Padding lanes (when fewer
than 8 pixels remain in the row) start inactive and their results are
discarded by the store loop, which only writes `current_batch_size` lanes.
-/

/-- One SIMD lane: per-pixel constants `cr`/`ci`, state `zr`/`zi`, the
iteration counter and the active mask. -/
structure Lane where
  cr : ℚ
  ci : ℚ
  zr : ℚ
  zi : ℚ
  iters : ℕ
  mask : Bool
deriving Inhabited

/-- One iteration of the branchless inner loop on a single lane:
`mask = mask & !escaped; z = mask ? next : z; iters += mask`. -/
def laneStep (l : Lane) : Lane :=
  let r2 := l.zr * l.zr
  let i2 := l.zi * l.zi
  let ri := l.zr * l.zi
  let next_zr := r2 - i2 + l.cr
  let next_zi := ri + ri + l.ci
  let escaped : Bool := decide (4 ≤ r2 + i2)
  let mask := l.mask && !escaped
  { l with
    zr := if mask then next_zr else l.zr
    zi := if mask then next_zi else l.zi
    iters := l.iters + (if mask then 1 else 0)
    mask := mask }

/-- Batch initialisation of lane i (`offset = (i < current_batch_size) ? i : 0`,
`cr = minr + (x + offset) * stepr`, z starts at c, mask set for live lanes). -/
def mkLane (minr stepr cy : ℚ) (x curBatch i : ℕ) : Lane :=
  let offset := if i < curBatch then i else 0
  let cr := minr + ((x + offset : ℕ) : ℚ) * stepr
  { cr := cr, ci := cy, zr := cr, zi := cy, iters := 0, mask := decide (i < curBatch) }

/-- The `for k < MAX_ITER` loop: update all lanes, then break when no lane
is active any more. -/
def batchLoop : ℕ → List Lane → List Lane
  | 0, lanes => lanes
  | fuel + 1, lanes =>
    let lanes := lanes.map laneStep
    if lanes.all fun l => !l.mask then lanes
    else batchLoop fuel lanes

/-- The result store of one batch:
`data[y*width + x + i] = iters[i]` for `i < current_batch_size`. -/
def simdBatchStore (vp : Viewport) (y x curBatch : ℕ) (lanes : List Lane)
    (data : Array ℕ) : Array ℕ :=
  (List.range curBatch).foldl (fun (data : Array ℕ) (i : ℕ) =>
    data.setD (y * vp.width + x + i) ((lanes.getD i default).iters)) data

/-- One row of `SimdMandelbrotCalculator::compute`: batches start at
x = 0, 8, 16, … below width. -/
def simdRow (vp : Viewport) (y : ℕ) (data : Array ℕ) : Array ℕ :=
  let cy := vp.mini + (y : ℚ) * vp.stepi
  ((List.range ((vp.width + 7) / 8)).map (· * 8)).foldl
    (fun (data : Array ℕ) (x : ℕ) =>
      let curBatch := min 8 (vp.width - x)
      let lanes := batchLoop MAX_ITER
        ((List.range 8).map (mkLane vp.minr vp.stepr cy x curBatch))
      simdBatchStore vp y x curBatch lanes data) data

/-- Final `data` buffer produced by `SimdMandelbrotCalculator::compute`:
row loop, batch loop in steps of 8, and the per-batch store of the live
lanes' counters. -/
def simdCompute (vp : Viewport) : Array ℕ :=
  (List.range vp.height).foldl (fun (data : Array ℕ) (y : ℕ) => simdRow vp y data)
    (Array.mkArray (vp.width * vp.height) MAX_ITER)

/-!
### Store bookkeeping: each pixel of the row is written exactly once
-/

/-- The scalar kernel's value for pixel column j of row y. -/
def rowVal (vp : Viewport) (y j : ℕ) : ℕ :=
  iterate (vp.minr + (j : ℚ) * vp.stepr) (vp.mini + (y : ℚ) * vp.stepi)

/-!
## Theorems
-/

theorem iterGo_succ (x y r i : ℚ) (n : ℕ) :
    iterGo x y (n + 1) r i
      = if 4 ≤ r * r + i * i then 0
        else 1 + iterGo x y n (r * r - i * i + x) (r * i + r * i + y) := rfl

theorem iterate_eq_zero_of_escape (x y : ℚ) (h : 4 ≤ x * x + y * y) :
    iterate x y = 0 := by
  rw [iterate, MAX_ITER, show (768 : ℕ) = 767 + 1 from rfl, iterGo_succ, if_pos h]

theorem iterGo_le (x y : ℚ) : ∀ (fuel : ℕ) (r i : ℚ), iterGo x y fuel r i ≤ fuel := by
  intro fuel
  induction fuel with
  | zero => intro r i; simp [iterGo]
  | succ n ih =>
    intro r i
    simp only [iterGo]
    split
    · exact Nat.zero_le _
    · have := ih (r * r - i * i + x) (r * i + r * i + y)
      omega

theorem iterGo_spec (x y : ℚ) : ∀ (fuel : ℕ) (r i : ℚ),
    (∀ j, j < iterGo x y fuel r i → normSq ((zstep x y)^[j] (r, i)) < 4) ∧
    (iterGo x y fuel r i < fuel → 4 ≤ normSq ((zstep x y)^[iterGo x y fuel r i] (r, i))) := by
  intro fuel
  induction fuel with
  | zero =>
    intro r i
    refine ⟨fun j hj => absurd hj (by simp [iterGo]), fun h => absurd h (by simp [iterGo])⟩
  | succ n ih =>
    intro r i
    by_cases hesc : (4 : ℚ) ≤ r * r + i * i
    · constructor
      · intro j hj
        rw [iterGo_succ, if_pos hesc] at hj
        exact absurd hj (by omega)
      · intro _
        simp [iterGo, hesc, normSq]
    · have hrec : iterGo x y (n + 1) r i
          = 1 + iterGo x y n (r * r - i * i + x) (r * i + r * i + y) := by
        simp [iterGo, hesc]
      have hstep : zstep x y (r, i) = (r * r - i * i + x, r * i + r * i + y) := rfl
      obtain ⟨ih1, ih2⟩ := ih (r * r - i * i + x) (r * i + r * i + y)
      constructor
      · intro j hj
        match j with
        | 0 =>
          simpa [normSq] using lt_of_not_le hesc
        | j + 1 =>
          rw [Function.iterate_succ_apply, hstep]
          exact ih1 j (by omega)
      · intro hlt
        rw [hrec] at hlt ⊢
        rw [Nat.add_comm 1 _, Function.iterate_succ_apply, hstep]
        exact ih2 (by omega)

/-- **C2** — For every complex constant c = (x, y), the shared escape-time
function iterates z ← z² + c starting from z₀ = c, returning the iteration
index k < MAX_ITER at which |z|² ≥ 4 first holds, or exactly MAX_ITER = 768
if |z|² stays below 4 for all 768 steps; in particular the returned value
always lies in [0, MAX_ITER]. -/
theorem iterate_escape_characterization (x y : ℚ) :
    iterate x y ≤ MAX_ITER ∧
    (∀ j, j < iterate x y → normSq (zseq x y j) < 4) ∧
    (iterate x y < MAX_ITER → 4 ≤ normSq (zseq x y (iterate x y))) ∧
    (iterate x y = MAX_ITER → ∀ j, j < MAX_ITER → normSq (zseq x y j) < 4) := by
  obtain ⟨h1, h2⟩ := iterGo_spec x y MAX_ITER x y
  refine ⟨iterGo_le x y MAX_ITER x y, fun j hj => h1 j hj, fun h => h2 h, fun he j hj => ?_⟩
  exact h1 j (by rw [iterate] at he; omega)

/-- Witness for `iterate_escape_characterization` at c = (3, 0):
the kernel returns 0 there and |z₀|² = 9 ≥ 4. -/
theorem iterate_escape_characterization_witness :
    4 ≤ normSq (zseq 3 0 (iterate 3 0)) := by
  have h0 : iterate 3 0 = 0 := iterate_eq_zero_of_escape 3 0 (by norm_num)
  exact (iterate_escape_characterization 3 0).2.2.1 (by rw [h0]; decide)

/-- **C5** — For all bounds (a, b, c, d): after `updateBoundsExplicit(a, b, c, d)`,
reading back the min/max bounds yields exactly (a, b, c, d), and the derived
`getCre()` / `getCim()` / `getDiam()` accessors (which return the `cre`, `cim`,
`diam` fields) equal ((a+c)/2, (b+d)/2, max(c-a, d-b)) exactly. -/
theorem updateBoundsExplicit_roundtrip (vp : Viewport) (a b c d : ℚ) :
    (updateBoundsExplicit vp a b c d).minr = a ∧
    (updateBoundsExplicit vp a b c d).mini = b ∧
    (updateBoundsExplicit vp a b c d).maxr = c ∧
    (updateBoundsExplicit vp a b c d).maxi = d ∧
    (updateBoundsExplicit vp a b c d).cre = (a + c) / 2 ∧
    (updateBoundsExplicit vp a b c d).cim = (b + d) / 2 ∧
    (updateBoundsExplicit vp a b c d).diam = max (c - a) (d - b) := by
  refine ⟨rfl, rfl, rfl, rfl, rfl, rfl, rfl⟩

/-- `Array.getD` of an in-bounds index is the corresponding element. -/
theorem getD_eq_getElem {α : Type} (a : Array α) (i : ℕ) (d : α) (h : i < a.size) :
    a.getD i d = a[i] := by
  simp [Array.getD, h]

theorem standardCompute_size (vp : Viewport) :
    (standardCompute vp).size = vp.width * vp.height := by
  simp [standardCompute]

theorem standardCompute_getD (vp : Viewport) (p : ℕ) (hp : p < vp.width * vp.height) :
    (standardCompute vp).getD p 0 = pixelFun vp p := by
  have hsz : p < (standardCompute vp).size := by rw [standardCompute_size]; exact hp
  rw [getD_eq_getElem _ _ _ hsz]
  simp [standardCompute]

/-!
## The default-viewport scenario (spec §8 property 8)

Viewport 8×8 with the constructor defaults centerReal = -0.5, centerImag = 0,
diameter = 3.0 gives minr = -2, mini = -3/2, stepr = stepi = 3/8.  Pixel
(4,4) maps to c = (-1/2, 0), whose orbit stays on the real segment
[-1/2, 1/4] forever, so the kernel runs to MAX_ITER.
-/

theorem iterGo_stuck_interval :
    ∀ (fuel : ℕ) (r : ℚ), -(1/2) ≤ r → r ≤ 1/4 → iterGo (-(1/2)) 0 fuel r 0 = fuel := by
  intro fuel
  induction fuel with
  | zero => intro r _ _; rfl
  | succ n ih =>
    intro r h1 h2
    rw [iterGo_succ]
    have hlt : ¬ (4 ≤ r * r + 0 * 0) := by nlinarith
    rw [if_neg hlt]
    have hz : r * 0 + r * 0 + 0 = (0 : ℚ) := by ring
    rw [hz, ih (r * r - 0 * 0 + -(1/2)) (by nlinarith) (by nlinarith)]
    omega

theorem iterate_half : iterate (-(1/2)) 0 = 768 :=
  iterGo_stuck_interval MAX_ITER (-(1/2)) (by norm_num) (by norm_num)

theorem mkViewport88_minr : (mkViewport 8 8).minr = -2 := by
  norm_num [mkViewport, updateBounds]

theorem mkViewport88_mini : (mkViewport 8 8).mini = -(3/2) := by
  norm_num [mkViewport, updateBounds]

theorem mkViewport88_stepr : (mkViewport 8 8).stepr = 3/8 := by
  norm_num [mkViewport, updateBounds]

theorem mkViewport88_stepi : (mkViewport 8 8).stepi = 3/8 := by
  norm_num [mkViewport, updateBounds]

/-- **C9** — For the 8×8 viewport with the constructor defaults
centerReal = -0.5, centerImag = 0, diameter = 3.0 and MAX_ITER = 768:
after `compute()`, pixel (0,0) escapes in fewer than 10 iterations and
pixel (4,4) returns exactly 768. -/
theorem default_viewport_scenario :
    (standardCompute (mkViewport 8 8)).getD (0 * 8 + 0) 0 < 10 ∧
    (standardCompute (mkViewport 8 8)).getD (4 * 8 + 4) 0 = 768 := by
  have hw : (mkViewport 8 8).width = 8 := rfl
  have hh : (mkViewport 8 8).height = 8 := rfl
  have hwh : (mkViewport 8 8).width * (mkViewport 8 8).height = 64 := by rw [hw, hh]
  constructor
  · rw [show 0 * 8 + 0 = 0 from rfl, standardCompute_getD _ 0 (by omega)]
    rw [pixelFun, hw, mkViewport88_minr, mkViewport88_mini, mkViewport88_stepr,
      mkViewport88_stepi]
    norm_num
    rw [iterate_eq_zero_of_escape (-2) (-(3/2)) (by norm_num)]
    omega
  · rw [show 4 * 8 + 4 = 36 from rfl, standardCompute_getD _ 36 (by omega)]
    rw [pixelFun, hw, mkViewport88_minr, mkViewport88_mini, mkViewport88_stepr,
      mkViewport88_stepi]
    have hx : (mkViewport 8 8).minr + ((36 % 8 : ℕ) : ℚ) * (3/8) = -(1/2) := by
      rw [mkViewport88_minr]; norm_num
    have hc : (-2 : ℚ) + ((36 % 8 : ℕ) : ℚ) * (3/8) = -(1/2) := by norm_num
    have hd : (-(3/2) : ℚ) + ((36 / 8 : ℕ) : ℚ) * (3/8) = 0 := by norm_num
    rw [hc, hd, iterate_half]

theorem tileBound_mono (W C : ℕ) {c c' : ℕ} (h : c ≤ c') : c * W / C ≤ c' * W / C :=
  Nat.div_le_div_right (Nat.mul_le_mul_right W h)

theorem tileBound_last (W : ℕ) {C : ℕ} (hC : 0 < C) : C * W / C = W := by
  rw [Nat.mul_div_cancel_left W hC]

theorem exists_tile_1d {W C : ℕ} (hC : 0 < C) {x : ℕ} (hx : x < W) :
    ∃ c, c < C ∧ c * W / C ≤ x ∧ x < (c + 1) * W / C := by
  have aux : ∀ n : ℕ, x < n * W / C → ∃ c, c < n ∧ c * W / C ≤ x ∧ x < (c + 1) * W / C := by
    intro n
    induction n with
    | zero => intro h; simp at h
    | succ m ih =>
      intro h
      by_cases hm : m * W / C ≤ x
      · exact ⟨m, Nat.lt_succ_self m, hm, h⟩
      · exact (ih (lt_of_not_le hm)).imp fun c ⟨h1, h2, h3⟩ => ⟨Nat.lt_succ_of_lt h1, h2, h3⟩
  apply aux C
  rw [tileBound_last W hC]
  exact hx

theorem unique_tile_1d {W C : ℕ} {x c c' : ℕ}
    (h1 : c * W / C ≤ x) (h2 : x < (c + 1) * W / C)
    (h1' : c' * W / C ≤ x) (h2' : x < (c' + 1) * W / C) : c = c' := by
  rcases Nat.lt_trichotomy c c' with h | h | h
  · have : (c + 1) * W / C ≤ c' * W / C := tileBound_mono W C (by omega)
    omega
  · exact h
  · have : (c' + 1) * W / C ≤ c * W / C := tileBound_mono W C (by omega)
    omega

/-- **C3** — For every viewport pixel size width×height and every grid with
rows ≥ 1 and cols ≥ 1, the floor-division tile boundaries produce tiles that
are pairwise disjoint and whose union is exactly the full width×height
rectangle (every pixel lies in exactly one tile, and tiles never reach
outside the rectangle), including all non-integral width/cols cases. -/
theorem tiling_partition (width height rows cols : ℕ) (hr : 1 ≤ rows) (hc : 1 ≤ cols) :
    (∀ x y, x < width → y < height →
      ∃! rc : ℕ × ℕ, rc.1 < rows ∧ rc.2 < cols ∧
        pixelInTile width height rows cols rc.1 rc.2 x y) ∧
    (∀ row col x y, row < rows → col < cols →
      pixelInTile width height rows cols row col x y → x < width ∧ y < height) := by
  constructor
  · intro x y hx hy
    obtain ⟨c, hcC, hcl, hcr⟩ := exists_tile_1d hc hx
    obtain ⟨r, hrR, hrl, hrr⟩ := exists_tile_1d hr hy
    refine ⟨(r, c), ⟨hrR, hcC, hcl, hcr, hrl, hrr⟩, ?_⟩
    rintro ⟨r', c'⟩ ⟨_, _, hcl', hcr', hrl', hrr'⟩
    have ec : c' = c := unique_tile_1d hcl' hcr' hcl hcr
    have er : r' = r := unique_tile_1d hrl' hrr' hrl hrr
    simp [ec, er]
  · rintro row col x y hrow hcol ⟨_, hxe, _, hye⟩
    constructor
    · calc x < tileEndX width cols col := hxe
        _ ≤ cols * width / cols := tileBound_mono width cols (by omega)
        _ = width := tileBound_last width (by omega)
    · calc y < tileEndY height rows row := hye
        _ ≤ rows * height / rows := tileBound_mono height rows (by omega)
        _ = height := tileBound_last height (by omega)

/-- Witness for `tiling_partition`: in a 2×3 grid over a 5×3 viewport,
pixel (2, 1) lies in exactly one tile. -/
theorem tiling_partition_witness :
    ∃! rc : ℕ × ℕ, rc.1 < 2 ∧ rc.2 < 3 ∧ pixelInTile 5 3 2 3 rc.1 rc.2 2 1 :=
  (tiling_partition 5 3 2 3 (by decide) (by decide)).1 2 1 (by decide) (by decide)

/-- **C4 (counterexample)** — The claim says the Tile Scheduler's `compute()`
forces single-tile (1×1 grid) execution whenever a GPU engine is selected.
On a `GridMandelbrotCalculator` built with a 2×2 grid and engine GPUF in
speed mode, `compute()` does take the non-parallel branch, but that branch
processes all four tiles of the grid sequentially, not a single tile:
`compute()` itself never shrinks the grid to 1×1. -/
theorem gpu_sequential_not_single_tile :
    parallelMode true EngineType.GPUF = false ∧
    (sequentialTileOrder 2 2).length ≠ 1 := by
  constructor
  · rfl
  · decide

/-- **C4 (amended)** — Whenever a GPU engine variant (GPUF or GPUD) is the
selected engine type, the Tile Scheduler's `compute()` never takes the
parallel worker-thread branch — even in speed mode it computes tiles
sequentially, in order, on the calling thread; the single-tile (1×1 grid)
property of GPU runs is imposed by the app shell, which always constructs
GPU grid calculators as 1×1. -/
theorem gpu_never_parallel (speedMode : Bool) (gridRows gridCols : ℕ) :
    parallelMode speedMode EngineType.GPUF = false ∧
    parallelMode speedMode EngineType.GPUD = false ∧
    sequentialTileOrder gridRows gridCols = List.range (gridRows * gridCols) ∧
    appGridDims EngineType.GPUF speedMode = (1, 1) ∧
    appGridDims EngineType.GPUD speedMode = (1, 1) := by
  refine ⟨?_, ?_, rfl, rfl, rfl⟩ <;> cases speedMode <;> rfl

theorem foldl_induction {α β : Type} (f : β → α → β) (l : List α) (init : β)
    (P : β → Prop) (h0 : P init) (hstep : ∀ b a, a ∈ l → P b → P (f b a)) :
    P (l.foldl f init) := by
  induction l generalizing init with
  | nil => exact h0
  | cons a as ih =>
    exact ih (f init a) (hstep init a (by simp) h0)
      fun b a2 ha hb => hstep b a2 (by simp [ha]) hb

theorem foldl_fixed {α β : Type} (f : β → α → β) (l : List α) (init : β)
    (h : ∀ b a, a ∈ l → f b a = b) : l.foldl f init = init := by
  induction l generalizing init with
  | nil => rfl
  | cons a as ih =>
    rw [List.foldl_cons, h init a (by simp)]
    exact ih init fun b a2 ha => h b a2 (by simp [ha])

theorem maxIterBelow_all_max (data : Array ℕ) (width height maxIter : ℕ)
    (hall : ∀ p, p < width * height → data.getD p 0 = maxIter) :
    maxIterBelow data width height maxIter = 0 := by
  unfold maxIterBelow
  apply foldl_fixed
  intro b y hy
  apply foldl_fixed
  intro b2 x hx
  have hp : y * width + x < width * height := by
    have hy' := List.mem_range.mp hy
    have hx' := List.mem_range.mp hx
    calc y * width + x < y * width + width := by omega
      _ = (y + 1) * width := by ring
      _ ≤ height * width := Nat.mul_le_mul_right width (by omega)
      _ = width * height := Nat.mul_comm height width
  simp only [hall _ hp]
  simp

theorem mem_insertDesc {a c : ℕ × ℕ × ℤ} :
    ∀ {l : List (ℕ × ℕ × ℤ)}, a ∈ insertDesc c l → a = c ∨ a ∈ l := by
  intro l
  induction l with
  | nil => intro h; simp [insertDesc] at h; simp [h]
  | cons d ds ih =>
    intro h
    rw [insertDesc] at h
    split at h
    · rcases List.mem_cons.mp h with h | h
      · exact Or.inl h
      · exact Or.inr h
    · rcases List.mem_cons.mp h with h | h
      · exact Or.inr (by simp [h])
      · rcases ih h with h | h
        · exact Or.inl h
        · exact Or.inr (by simp [h])

theorem length_insertDesc (c : ℕ × ℕ × ℤ) :
    ∀ (l : List (ℕ × ℕ × ℤ)), (insertDesc c l).length = l.length + 1 := by
  intro l
  induction l with
  | nil => rfl
  | cons d ds ih =>
    rw [insertDesc]
    split
    · simp
    · simp [ih]

theorem mem_sortByScoreDesc {a : ℕ × ℕ × ℤ} :
    ∀ {l : List (ℕ × ℕ × ℤ)}, a ∈ sortByScoreDesc l → a ∈ l := by
  intro l
  induction l with
  | nil => intro h; simp [sortByScoreDesc] at h
  | cons c cs ih =>
    intro h
    rcases mem_insertDesc h with h | h
    · simp [h]
    · simp [ih h]

theorem length_sortByScoreDesc :
    ∀ (l : List (ℕ × ℕ × ℤ)), (sortByScoreDesc l).length = l.length := by
  intro l
  induction l with
  | nil => rfl
  | cons c cs ih => rw [sortByScoreDesc, length_insertDesc, ih, List.length_cons]

/-- All reservoir samples are pixel coordinates of the field. -/
theorem gatherSamples_bounds (rnd : ℕ → ℕ) (data : Array ℕ)
    (width height maxIter : ℕ) (threshold : ℤ) :
    ∀ xy ∈ (gatherSamples rnd data width height maxIter threshold).samples,
      xy.1 < width ∧ xy.2 < height := by
  unfold gatherSamples
  apply foldl_induction (P := fun st : Reservoir =>
    ∀ xy ∈ st.samples, xy.1 < width ∧ xy.2 < height)
  · intro xy h; simp at h
  · intro st y hy hst
    apply foldl_induction (P := fun st : Reservoir =>
      ∀ xy ∈ st.samples, xy.1 < width ∧ xy.2 < height)
    · exact hst
    · intro st2 x hx hst2
      simp only []
      split
      · intro xy hxy
        simp only [reservoirVisit] at hxy
        split at hxy
        · rcases List.mem_append.mp hxy with h | h
          · exact hst2 xy h
          · simp at h
            subst h
            exact ⟨List.mem_range.mp hx, List.mem_range.mp hy⟩
        · split at hxy
          · rcases List.mem_or_eq_of_mem_set hxy with h | h
            · exact hst2 xy h
            · subst h
              exact ⟨List.mem_range.mp hx, List.mem_range.mp hy⟩
          · exact hst2 xy hxy
      · exact hst2

/-- **C8** — For every field, `findInterestingPoint` returns in-bounds
coordinates; whenever it returns found = false the coordinates are exactly
the field's centre (width/2, height/2); and on a field whose entries are all
`maxIter` (entirely non-escaping) it returns found = false with exactly the
centre coordinates. -/
theorem findInterestingPoint_contract (rnd : ℕ → ℕ) (data : Array ℕ)
    (width height maxIter zoomRectWidth zoomRectHeight : ℕ)
    (hw : 0 < width) (hh : 0 < height) :
    ((findInterestingPoint rnd data width height maxIter zoomRectWidth zoomRectHeight).2.1
        < width ∧
     (findInterestingPoint rnd data width height maxIter zoomRectWidth zoomRectHeight).2.2
        < height) ∧
    ((findInterestingPoint rnd data width height maxIter zoomRectWidth zoomRectHeight).1
        = false →
      (findInterestingPoint rnd data width height maxIter zoomRectWidth zoomRectHeight).2.1
          = width / 2 ∧
      (findInterestingPoint rnd data width height maxIter zoomRectWidth zoomRectHeight).2.2
          = height / 2) ∧
    ((∀ p, p < width * height → data.getD p 0 = maxIter) →
      findInterestingPoint rnd data width height maxIter zoomRectWidth zoomRectHeight
        = (false, width / 2, height / 2)) := by
  have hcenter : width / 2 < width ∧ height / 2 < height :=
    ⟨Nat.div_lt_self hw (by omega), Nat.div_lt_self hh (by omega)⟩
  refine ⟨?_, ?_, ?_⟩
  case _ =>
    simp only [findInterestingPoint]
    split
    · exact hcenter
    · split
      · exact hcenter
      · split
        · exact hcenter
        · rename_i hne hsome hcand
          set rs := gatherSamples rnd data width height maxIter
            ((maxIterBelow data width height maxIter : ℤ) - 5) with hrs
          set candidates := rs.samples.filterMap (fun xy =>
            let score := calculateDiversityScore data width maxIter height xy.1 xy.2
              zoomRectWidth zoomRectHeight
            if 0 < score then some (xy.1, xy.2, score) else none) with hcands
          have hcb : ∀ c ∈ candidates, c.1 < width ∧ c.2.1 < height := by
            intro c hc
            rw [hcands] at hc
            obtain ⟨xy, hxy, heq⟩ := List.mem_filterMap.mp hc
            have hb := gatherSamples_bounds rnd data width height maxIter
              ((maxIterBelow data width height maxIter : ℤ) - 5) xy hxy
            simp only [] at heq
            split at heq
            · cases Option.some.inj heq
              exact ⟨hb.1, hb.2⟩
            · exact absurd heq (by simp)
          have hlen : 1 ≤ candidates.length := by
            rcases hc : candidates with _ | ⟨c, cs⟩
            · rw [hc] at hcand; simp at hcand
            · simp
          have htop : max 1 (candidates.length * 2 / 10) ≤ candidates.length := by
            have h1 : candidates.length * 2 / 10 ≤ candidates.length * 2 / 2 :=
              Nat.div_le_div_left (by omega) (by omega)
            have h2 : candidates.length * 2 / 2 = candidates.length := by omega
            omega
          have hpos : 0 < max 1 (candidates.length * 2 / 10) := by omega
          have hidx : rnd rs.rcalls % max 1 (candidates.length * 2 / 10)
              < (sortByScoreDesc candidates).length := by
            rw [length_sortByScoreDesc]
            exact lt_of_lt_of_le (Nat.mod_lt _ hpos) htop
          have hmem : (sortByScoreDesc candidates).getD
              (rnd rs.rcalls % max 1 (candidates.length * 2 / 10)) (0, 0, 0)
              ∈ sortByScoreDesc candidates := by
            rw [List.getD_eq_getElem _ _ hidx]
            exact List.getElem_mem _
          exact hcb _ (mem_sortByScoreDesc hmem)
  case _ =>
    simp only [findInterestingPoint]
    split
    · intro _; exact ⟨rfl, rfl⟩
    · split
      · intro _; exact ⟨rfl, rfl⟩
      · split
        · intro _; exact ⟨rfl, rfl⟩
        · intro h; exact absurd h (by simp)
  case _ =>
    intro hall
    simp only [findInterestingPoint]
    rw [maxIterBelow_all_max data width height maxIter hall]
    simp

/-- Witness for `findInterestingPoint_contract`: a 2×2 field that is
entirely MAX_ITER yields found = false at the centre (1, 1). -/
theorem findInterestingPoint_contract_witness :
    findInterestingPoint (fun _ => 0) (Array.mkArray 4 768) 2 2 768 1 1
      = (false, 1, 1) :=
  (findInterestingPoint_contract (fun _ => 0) (Array.mkArray 4 768) 2 2 768 1 1
    (by decide) (by decide)).2.2 (by decide)

/-!
### Safety invariants of the border-tracing state

`numQueued` counts set QUEUED bits; the central invariant `BInv0` states
that `queueHead` equals the number of enqueues so far (so the head cursor
never wraps), the active ring segment is `[queueTail, queueHead)`, and its
entries are valid queued pixels.  `QmemE` tracks that every queued pixel is
either already loaded or still sitting in the queue (up to an excuse set
used while a dequeued pixel is being scanned).
-/

theorem setD_oob {α : Type} (a : Array α) {i : ℕ} (v : α) (h : a.size ≤ i) :
    a.setD i v = a := by
  rw [Array.setD, dif_neg (by omega)]

theorem getD_setD_self {α : Type} (a : Array α) {i : ℕ} (v d : α) (h : i < a.size) :
    (a.setD i v).getD i d = v := by
  rw [Array.setD, dif_pos h, Array.getD, dif_pos (by rw [Array.size_set]; exact h)]
  simp only [Array.get_eq_getElem]
  exact Array.get_set_eq a ⟨i, h⟩ v

theorem getD_setD_ne {α : Type} (a : Array α) {i j : ℕ} (v d : α) (h : i ≠ j) :
    (a.setD i v).getD j d = a.getD j d := by
  rw [Array.setD]
  split
  · rename_i hi
    rw [Array.getD, Array.getD]
    rcases Nat.lt_or_ge j a.size with hj | hj
    · rw [dif_pos (by rw [Array.size_set]; exact hj), dif_pos hj]
      simp only [Array.get_eq_getElem]
      exact Array.getElem_set_ne a ⟨i, hi⟩ v _ h
    · rw [dif_neg (by rw [Array.size_set]; omega), dif_neg (by omega)]
  · rfl

theorem doneLe_refl (st : BState) : doneLe st st := fun _ => ⟨id, id⟩

theorem doneLe_trans {a b c : BState} (h1 : doneLe a b) (h2 : doneLe b c) :
    doneLe a c :=
  fun p => ⟨fun h => (h2 p).1 ((h1 p).1 h), fun h => (h2 p).2 ((h1 p).2 h)⟩

theorem stepOK_refl (n : ℕ) (st : BState) : StepOK n st st :=
  ⟨id, rfl, fun _ => le_refl _, doneLe_refl st, fun _ _ h => h⟩

theorem stepOK_trans {n : ℕ} {a b c : BState} (h1 : StepOK n a b) (h2 : StepOK n b c) :
    StepOK n a c := by
  obtain ⟨i1, t1, m1, d1, q1⟩ := h1
  obtain ⟨i2, t2, m2, d2, q2⟩ := h2
  exact ⟨fun h => i2 (i1 h), t2.trans t1,
    fun h => le_trans (m2 (i1 h)) (m1 h), doneLe_trans d1 d2,
    fun E h hq => q2 E (i1 h) (q1 E h hq)⟩

theorem numQueued_le (n : ℕ) (st : BState) : numQueued n st ≤ n := by
  calc numQueued n st ≤ (Finset.range n).card := Finset.card_filter_le _ _
    _ = n := Finset.card_range n

/-!
### Atomic-step lemmas: `addQueue`, `load`, `loadDiff`
-/

theorem queued_ne_true {st : BState} {p : ℕ}
    (hq : (st.done.getD p default).queued = false) :
    ¬ ((st.done.getD p default).queued = true) := by
  rw [hq]; simp

theorem addQueue_skip {st : BState} {p : ℕ}
    (hq : (st.done.getD p default).queued = true) : addQueue st p = st := by
  rw [addQueue, if_pos hq]

theorem addQueue_fresh_data {st : BState} {p : ℕ}
    (hq : (st.done.getD p default).queued = false) :
    (addQueue st p).data = st.data := by
  rw [addQueue, if_neg (queued_ne_true hq)]

theorem addQueue_fresh_done {st : BState} {p : ℕ}
    (hq : (st.done.getD p default).queued = false) :
    (addQueue st p).done
      = st.done.setD p { st.done.getD p default with queued := true } := by
  rw [addQueue, if_neg (queued_ne_true hq)]

theorem addQueue_fresh_queue {st : BState} {p : ℕ}
    (hq : (st.done.getD p default).queued = false) :
    (addQueue st p).queue = st.queue.setD st.queueHead p := by
  rw [addQueue, if_neg (queued_ne_true hq)]

theorem addQueue_fresh_headIf {st : BState} {p : ℕ}
    (hq : (st.done.getD p default).queued = false) :
    (addQueue st p).queueHead
      = if st.queueHead + 1 = st.queue.size then 0 else st.queueHead + 1 := by
  rw [addQueue, if_neg (queued_ne_true hq)]
  simp only [Array.size_setD]

theorem addQueue_tail (st : BState) (p : ℕ) :
    (addQueue st p).queueTail = st.queueTail := by
  rw [addQueue]; split <;> rfl

theorem addQueue_queued_iff {n : ℕ} {st : BState} {p : ℕ} (hI : BInv0 n st)
    (hp : p < n) (hq : (st.done.getD p default).queued = false) (q : ℕ) :
    (((addQueue st p).done.getD q default).queued = true ↔
      ((st.done.getD q default).queued = true ∨ q = p)) := by
  rw [addQueue_fresh_done hq]
  by_cases hpq : p = q
  · subst hpq
    rw [getD_setD_self _ _ _ (by rw [hI.dsize]; exact hp)]
    simp
  · rw [getD_setD_ne _ _ _ hpq]
    constructor
    · exact Or.inl
    · rintro (h | h)
      · exact h
      · exact absurd h.symm hpq

theorem addQueue_loaded_eq (st : BState) (p q : ℕ) :
    ((addQueue st p).done.getD q default).loaded
      = (st.done.getD q default).loaded := by
  by_cases hq : (st.done.getD p default).queued = true
  · rw [addQueue_skip hq]
  · rw [addQueue_fresh_done (by simpa using hq)]
    by_cases hpq : p = q
    · subst hpq
      by_cases hs : p < st.done.size
      · rw [getD_setD_self _ _ _ hs]
      · rw [setD_oob _ _ (by omega)]
    · rw [getD_setD_ne _ _ _ hpq]

theorem addQueue_queued_mono (st : BState) (p q : ℕ)
    (h : (st.done.getD q default).queued = true) :
    ((addQueue st p).done.getD q default).queued = true := by
  by_cases hq : (st.done.getD p default).queued = true
  · rw [addQueue_skip hq]; exact h
  · rw [addQueue_fresh_done (by simpa using hq)]
    by_cases hpq : p = q
    · subst hpq
      by_cases hs : p < st.done.size
      · rw [getD_setD_self _ _ _ hs]
      · rw [setD_oob _ _ (by omega)]; exact h
    · rw [getD_setD_ne _ _ _ hpq]; exact h

theorem addQueue_doneLe (st : BState) (p : ℕ) : doneLe st (addQueue st p) :=
  fun q => ⟨addQueue_queued_mono st p q,
    fun h => by rw [addQueue_loaded_eq]; exact h⟩

theorem numQueued_lt_of_unqueued {n : ℕ} {st : BState} {p : ℕ} (hp : p < n)
    (hq : (st.done.getD p default).queued = false) : numQueued n st < n := by
  have hsub : ((Finset.range n).filter
      fun q => (st.done.getD q default).queued = true) ⊆ (Finset.range n).erase p := by
    intro q hmem
    rw [Finset.mem_filter] at hmem
    rw [Finset.mem_erase]
    refine ⟨fun he => ?_, hmem.1⟩
    rw [he, hq] at hmem
    exact absurd hmem.2 (by simp)
  calc numQueued n st ≤ ((Finset.range n).erase p).card := Finset.card_le_card hsub
    _ = n - 1 := by
        rw [Finset.card_erase_of_mem (Finset.mem_range.mpr hp), Finset.card_range]
    _ < n := by omega

theorem addQueue_fresh_head {n : ℕ} {st : BState} {p : ℕ} (hI : BInv0 n st)
    (hp : p < n) (hq : (st.done.getD p default).queued = false) :
    (addQueue st p).queueHead = st.queueHead + 1 := by
  rw [addQueue_fresh_headIf hq, if_neg ?_]
  rw [hI.qsize]
  have h1 := hI.head_le
  have h2 := numQueued_lt_of_unqueued hp hq
  omega

theorem addQueue_fresh_numQueued {n : ℕ} {st : BState} {p : ℕ} (hI : BInv0 n st)
    (hp : p < n) (hq : (st.done.getD p default).queued = false) :
    numQueued n (addQueue st p) = numQueued n st + 1 := by
  unfold numQueued
  have hset : ((Finset.range n).filter
      fun q => (((addQueue st p).done.getD q default).queued = true))
      = insert p ((Finset.range n).filter
        fun q => ((st.done.getD q default).queued = true)) := by
    ext q
    rw [Finset.mem_insert, Finset.mem_filter, Finset.mem_filter]
    constructor
    · rintro ⟨hqr, hqq⟩
      rcases (addQueue_queued_iff hI hp hq q).mp hqq with h | h
      · exact Or.inr ⟨hqr, h⟩
      · exact Or.inl h
    · rintro (rfl | ⟨hqr, hqq⟩)
      · exact ⟨Finset.mem_range.mpr hp, (addQueue_queued_iff hI hp hq q).mpr (Or.inr rfl)⟩
      · exact ⟨hqr, (addQueue_queued_iff hI hp hq q).mpr (Or.inl hqq)⟩
  rw [hset, Finset.card_insert_of_not_mem]
  rw [Finset.mem_filter]
  rintro ⟨_, hmem⟩
  rw [hq] at hmem
  exact absurd hmem (by simp)

theorem addQueue_fresh_inv {n : ℕ} {st : BState} {p : ℕ} (hI : BInv0 n st)
    (hp : p < n) (hq : (st.done.getD p default).queued = false) :
    BInv0 n (addQueue st p) := by
  have hhead := addQueue_fresh_head hI hp hq
  have hnum := addQueue_fresh_numQueued hI hp hq
  refine ⟨?_, ?_, ?_, ?_, ?_, ?_⟩
  · rw [addQueue_fresh_queue hq, Array.size_setD]; exact hI.qsize
  · rw [addQueue_fresh_done hq, Array.size_setD]; exact hI.dsize
  · rw [addQueue_fresh_data hq]; exact hI.datasize
  · rw [addQueue_tail, hhead]
    exact le_trans hI.tail_le (by omega)
  · rw [hhead, hnum]
    have := hI.head_le
    omega
  · intro i hti hih
    rw [addQueue_tail] at hti
    rw [hhead] at hih
    rw [addQueue_fresh_queue hq]
    by_cases hih2 : i = st.queueHead
    · subst hih2
      have hlt : st.queueHead < st.queue.size := by
        rw [hI.qsize]
        have h1 := hI.head_le
        have h2 := numQueued_lt_of_unqueued hp hq
        omega
      rw [getD_setD_self _ _ _ hlt]
      refine ⟨hp, ?_⟩
      rw [addQueue_fresh_done hq, getD_setD_self _ _ _ (by rw [hI.dsize]; exact hp)]
    · rw [getD_setD_ne _ _ _ (fun h => hih2 h.symm)]
      have hseg := hI.seg i hti (by omega)
      exact ⟨hseg.1, addQueue_queued_mono st p _ hseg.2⟩

theorem addQueue_stepOK (n : ℕ) (st : BState) (p : ℕ) (hp : p < n) :
    StepOK n st (addQueue st p) ∧
    (BInv0 n st → ((addQueue st p).done.getD p default).queued = true) := by
  by_cases hq : (st.done.getD p default).queued = true
  · rw [addQueue_skip hq]
    exact ⟨stepOK_refl n st, fun _ => hq⟩
  · have hq' : (st.done.getD p default).queued = false := by simpa using hq
    have hqueued : ∀ hI : BInv0 n st,
        ((addQueue st p).done.getD p default).queued = true := fun hI => by
      rw [addQueue_fresh_done hq',
        getD_setD_self _ _ _ (by rw [hI.dsize]; exact hp)]
    refine ⟨⟨fun hI => addQueue_fresh_inv hI hp hq', addQueue_tail st p, ?_,
      addQueue_doneLe st p, ?_⟩, hqueued⟩
    · intro hI
      have hhead := addQueue_fresh_head hI hp hq'
      have hnum := addQueue_fresh_numQueued hI hp hq'
      have hQlt := numQueued_lt_of_unqueued hp hq'
      have htle := hI.tail_le
      unfold bMeasure
      rw [hnum, hhead, addQueue_tail]
      omega
    · intro E hI hQ q hqn hqq
      have hhead := addQueue_fresh_head hI hp hq'
      rcases (addQueue_queued_iff hI hp hq' q).mp hqq with hold | rfl
      · rcases hQ q hqn hold with h | h | h
        · exact Or.inl ((addQueue_doneLe st p q).2 h)
        · refine Or.inr (Or.inl ?_)
          obtain ⟨i, h1, h2, h3⟩ := h
          refine ⟨i, by rw [addQueue_tail]; exact h1, by rw [hhead]; omega, ?_⟩
          rw [addQueue_fresh_queue hq',
            getD_setD_ne _ _ _ (by
              have h4 := hI.head_le
              have h5 := numQueued_lt_of_unqueued hp hq'
              omega), h3]
        · exact Or.inr (Or.inr h)
      · refine Or.inr (Or.inl ⟨st.queueHead, by rw [addQueue_tail]; exact hI.tail_le,
          by rw [hhead]; omega, ?_⟩)
        have hlt : st.queueHead < st.queue.size := by
          rw [hI.qsize]
          have h1 := hI.head_le
          have h2 := numQueued_lt_of_unqueued hp hq'
          omega
        rw [addQueue_fresh_queue hq', getD_setD_self _ _ _ hlt]

theorem load_queue (f : ℕ → ℕ) (st : BState) (p : ℕ) :
    (load f st p).1.queue = st.queue := by
  rw [load]; split <;> rfl

theorem load_head (f : ℕ → ℕ) (st : BState) (p : ℕ) :
    (load f st p).1.queueHead = st.queueHead := by
  rw [load]; split <;> rfl

theorem load_tail (f : ℕ → ℕ) (st : BState) (p : ℕ) :
    (load f st p).1.queueTail = st.queueTail := by
  rw [load]; split <;> rfl

theorem load_done_size (f : ℕ → ℕ) (st : BState) (p : ℕ) :
    (load f st p).1.done.size = st.done.size := by
  rw [load]; split
  · rfl
  · show (st.done.setD p _).size = st.done.size
    rw [Array.size_setD]

theorem load_data_size (f : ℕ → ℕ) (st : BState) (p : ℕ) :
    (load f st p).1.data.size = st.data.size := by
  rw [load]; split
  · rfl
  · show (st.data.setD p _).size = st.data.size
    rw [Array.size_setD]

theorem load_queued_eq (f : ℕ → ℕ) (st : BState) (p q : ℕ) :
    (((load f st p).1).done.getD q default).queued
      = (st.done.getD q default).queued := by
  rw [load]; split
  · rfl
  · show ((st.done.setD p { st.done.getD p default with loaded := true }).getD
      q default).queued = _
    by_cases hpq : p = q
    · subst hpq
      by_cases hs : p < st.done.size
      · rw [getD_setD_self _ _ _ hs]
      · rw [setD_oob _ _ (by omega)]
    · rw [getD_setD_ne _ _ _ hpq]

theorem load_loaded_mono (f : ℕ → ℕ) (st : BState) (p q : ℕ)
    (h : (st.done.getD q default).loaded = true) :
    (((load f st p).1).done.getD q default).loaded = true := by
  rw [load]; split
  · exact h
  · show ((st.done.setD p { st.done.getD p default with loaded := true }).getD
      q default).loaded = true
    by_cases hpq : p = q
    · subst hpq
      by_cases hs : p < st.done.size
      · rw [getD_setD_self _ _ _ hs]
      · rw [setD_oob _ _ (by omega)]; exact h
    · rw [getD_setD_ne _ _ _ hpq]; exact h

theorem load_sets_loaded (f : ℕ → ℕ) (st : BState) (p : ℕ)
    (hs : p < st.done.size) :
    (((load f st p).1).done.getD p default).loaded = true := by
  by_cases hl : (st.done.getD p default).loaded = true
  · rw [load, if_pos hl]
    exact hl
  · rw [load, if_neg hl]
    show ((st.done.setD p { st.done.getD p default with loaded := true }).getD
      p default).loaded = true
    rw [getD_setD_self _ _ _ hs]

theorem load_numQueued (n : ℕ) (f : ℕ → ℕ) (st : BState) (p : ℕ) :
    numQueued n (load f st p).1 = numQueued n st := by
  unfold numQueued
  congr 1
  apply Finset.filter_congr
  intro q _
  rw [load_queued_eq]

theorem load_stepOK (n : ℕ) (f : ℕ → ℕ) (st : BState) (p : ℕ) :
    StepOK n st (load f st p).1 := by
  refine ⟨fun hI => ⟨?_, ?_, ?_, ?_, ?_, ?_⟩, load_tail f st p, fun hI => ?_, ?_, ?_⟩
  · rw [load_queue]; exact hI.qsize
  · rw [load_done_size]; exact hI.dsize
  · rw [load_data_size]; exact hI.datasize
  · rw [load_tail, load_head]; exact hI.tail_le
  · rw [load_head, load_numQueued]; exact hI.head_le
  · intro i hti hih
    rw [load_tail] at hti
    rw [load_head] at hih
    rw [load_queue, load_queued_eq]
    exact hI.seg i hti hih
  · unfold bMeasure
    rw [load_numQueued, load_head, load_tail]
  · intro q
    constructor
    · rw [load_queued_eq]; exact id
    · exact load_loaded_mono f st p q
  · intro E hI hQ q hqn hqq
    rw [load_queued_eq] at hqq
    rcases hQ q hqn hqq with hcase | hcase | hcase
    · exact Or.inl (load_loaded_mono f st p q hcase)
    · refine Or.inr (Or.inl ?_)
      obtain ⟨i, h1, h2, h3⟩ := hcase
      exact ⟨i, by rw [load_tail]; exact h1, by rw [load_head]; exact h2,
        by rw [load_queue]; exact h3⟩
    · exact Or.inr (Or.inr hcase)

theorem loadDiff_fst_cases (f : ℕ → ℕ) (st : BState) (cond : Bool) (q c : ℕ) :
    (loadDiff f st cond q c).1 = st ∨ (loadDiff f st cond q c).1 = (load f st q).1 := by
  rw [loadDiff]
  split
  · exact Or.inr rfl
  · exact Or.inl rfl

theorem loadDiff_true (f : ℕ → ℕ) (st : BState) (cond : Bool) (q c : ℕ) :
    (loadDiff f st cond q c).2 = true → cond = true := by
  rw [loadDiff]
  split
  · intro _; assumption
  · intro hfalse; exact absurd hfalse (by simp)

theorem loadDiff_stepOK (n : ℕ) (f : ℕ → ℕ) (st : BState) (cond : Bool) (q c : ℕ) :
    StepOK n st (loadDiff f st cond q c).1 := by
  rcases loadDiff_fst_cases f st cond q c with hc | hc <;> rw [hc]
  · exact stepOK_refl n st
  · exact load_stepOK n f st q

theorem stepOK_condAdd (n : ℕ) (st : BState) (b : Bool) (q : ℕ)
    (hb : b = true → q < n) : StepOK n st (if b then addQueue st q else st) := by
  cases b
  · rw [if_neg (by simp)]
    exact stepOK_refl n st
  · rw [if_pos rfl]
    exact (addQueue_stepOK n st q (hb rfl)).1

/-!
### Pixel geometry facts used for the neighbour bounds in `scan`
-/

theorem width_pos {w h p : ℕ} (hp : p < w * h) : 0 < w := by
  rcases Nat.eq_zero_or_pos w with h0 | h0
  · subst h0; simp at hp
  · exact h0

theorem row_lt {w h p : ℕ} (hp : p < w * h) : p / w < h := by
  have hw := width_pos hp
  rw [Nat.div_lt_iff_lt_mul hw]
  calc p < w * h := hp
    _ = h * w := Nat.mul_comm w h

theorem pixel_plus_one {w h p : ℕ} (hp : p < w * h) (hx : p % w < w - 1) :
    p + 1 < w * h := by
  have hw := width_pos hp
  have hdm := Nat.div_add_mod p w
  have hy := row_lt hp
  have h1 : w * (p / w) + w ≤ w * h := by
    calc w * (p / w) + w = w * (p / w + 1) := by ring
      _ ≤ w * h := Nat.mul_le_mul_left w hy
  omega

theorem pixel_plus_w {w h p : ℕ} (hp : p < w * h) (hy : p / w < h - 1) :
    p + w < w * h := by
  have hw := width_pos hp
  have hdm := Nat.div_add_mod p w
  have hx : p % w < w := Nat.mod_lt _ hw
  have hh : p / w + 2 ≤ h := by
    have h0 := row_lt hp
    revert hy h0
    generalize p / w = q
    intro hy h0
    omega
  have h1 : w * (p / w) + 2 * w ≤ w * h := by
    calc w * (p / w) + 2 * w = w * (p / w + 2) := by ring
      _ ≤ w * h := Nat.mul_le_mul_left w hh
  omega

theorem pixel_plus_w_plus_one {w h p : ℕ} (hp : p < w * h) (hy : p / w < h - 1)
    (hx : p % w < w - 1) : p + w + 1 < w * h := by
  have hw := width_pos hp
  have hdm := Nat.div_add_mod p w
  have hh : p / w + 2 ≤ h := by
    have h0 := row_lt hp
    revert hy h0
    generalize p / w = q
    intro hy h0
    omega
  have h1 : w * (p / w) + 2 * w ≤ w * h := by
    calc w * (p / w) + 2 * w = w * (p / w + 2) := by ring
      _ ≤ w * h := Nat.mul_le_mul_left w hh
  omega

theorem pixel_ge_w {w p : ℕ} (_hw : 0 < w) (hy : 1 ≤ p / w) : w ≤ p := by
  have hdm := Nat.div_add_mod p w
  have h1 : w * 1 ≤ w * (p / w) := Nat.mul_le_mul_left w hy
  omega

/-!
### The `scan` step preserves all invariants
-/

theorem scan_from_load (w h : ℕ) (f : ℕ → ℕ) (st : BState) (p : ℕ)
    (hp : p < w * h) :
    StepOK (w * h) (load f st p).1 (scan w h f st p) := by
  have hw := width_pos hp
  simp only [scan]
  refine stepOK_trans ?_ (stepOK_condAdd _ _ _ _ ?h8)
  refine stepOK_trans ?_ (stepOK_condAdd _ _ _ _ ?h7)
  refine stepOK_trans ?_ (stepOK_condAdd _ _ _ _ ?h6)
  refine stepOK_trans ?_ (stepOK_condAdd _ _ _ _ ?h5)
  refine stepOK_trans ?_ (stepOK_condAdd _ _ _ _ ?h4)
  refine stepOK_trans ?_ (stepOK_condAdd _ _ _ _ ?h3)
  refine stepOK_trans ?_ (stepOK_condAdd _ _ _ _ ?h2)
  refine stepOK_trans ?_ (stepOK_condAdd _ _ _ _ ?h1)
  refine stepOK_trans ?_ (loadDiff_stepOK _ _ _ _ _ _)
  refine stepOK_trans ?_ (loadDiff_stepOK _ _ _ _ _ _)
  refine stepOK_trans ?_ (loadDiff_stepOK _ _ _ _ _ _)
  refine stepOK_trans ?_ (loadDiff_stepOK _ _ _ _ _ _)
  exact stepOK_refl _ _
  case h1 =>
    intro _
    omega
  case h2 =>
    intro hb
    have hrr := loadDiff_true _ _ _ _ _ hb
    have hx := of_decide_eq_true hrr
    exact pixel_plus_one hp hx
  case h3 =>
    intro _
    omega
  case h4 =>
    intro hb
    have hdd := loadDiff_true _ _ _ _ _ hb
    have hy := of_decide_eq_true hdd
    exact pixel_plus_w hp hy
  case h5 =>
    intro _
    omega
  case h6 =>
    intro hb
    rw [Bool.and_eq_true, Bool.and_eq_true] at hb
    obtain ⟨⟨huu, _⟩, _⟩ := hb
    have hy := of_decide_eq_true huu
    have hge := pixel_ge_w hw hy
    omega
  case h7 =>
    intro hb
    rw [Bool.and_eq_true, Bool.and_eq_true] at hb
    obtain ⟨⟨hdd, _⟩, _⟩ := hb
    have hy := of_decide_eq_true hdd
    have := pixel_plus_w hp hy
    omega
  case h8 =>
    intro hb
    rw [Bool.and_eq_true, Bool.and_eq_true] at hb
    obtain ⟨⟨hdd, hrr⟩, _⟩ := hb
    have hy := of_decide_eq_true hdd
    have hx := of_decide_eq_true hrr
    exact pixel_plus_w_plus_one hp hy hx

theorem scan_stepOK (w h : ℕ) (f : ℕ → ℕ) (st : BState) (p : ℕ)
    (hp : p < w * h) : StepOK (w * h) st (scan w h f st p) :=
  stepOK_trans (load_stepOK (w * h) f st p) (scan_from_load w h f st p hp)

theorem scan_loaded (w h : ℕ) (f : ℕ → ℕ) (st : BState) (p : ℕ)
    (hp : p < w * h) (hs : p < st.done.size) :
    ((scan w h f st p).done.getD p default).loaded = true :=
  ((scan_from_load w h f st p hp).2.2.2.1 p).2 (load_sets_loaded f st p hs)

theorem scan_qmem (w h : ℕ) (f : ℕ → ℕ) (st : BState) (p : ℕ)
    (hp : p < w * h) (hI : BInv0 (w * h) st)
    (hQ : QmemE (w * h) st (fun q => q = p)) :
    QmemE (w * h) (scan w h f st p) (fun _ => False) := by
  have hL := load_stepOK (w * h) f st p
  have hI1 : BInv0 (w * h) (load f st p).1 := hL.1 hI
  have hQ1 : QmemE (w * h) (load f st p).1 (fun q => q = p) := hL.2.2.2.2 _ hI hQ
  have hl1 : ((load f st p).1.done.getD p default).loaded = true :=
    load_sets_loaded f st p (by rw [hI.dsize]; exact hp)
  have hQ2 : QmemE (w * h) (load f st p).1 (fun _ => False) := by
    intro q hqn hqq
    rcases hQ1 q hqn hqq with hc | hc | hc
    · exact Or.inl hc
    · exact Or.inr (Or.inl hc)
    · subst hc
      exact Or.inl hl1
  exact (scan_from_load w h f st p hp).2.2.2.2 _ hI1 hQ2

/-!
### Dequeues and the drain loop
-/

theorem bMeasure_le (n : ℕ) (st : BState) (hI : BInv0 n st) :
    bMeasure n st ≤ 2 * n := by
  have h1 := hI.tail_le
  have h2 := hI.head_le
  have h3 := numQueued_le n st
  unfold bMeasure
  omega

theorem dequeueTail_spec (n : ℕ) (st : BState) (hI : BInv0 n st)
    (hne : st.queueTail ≠ st.queueHead) :
    (dequeueTail st).2 < n ∧
    BInv0 n (dequeueTail st).1 ∧
    bMeasure n (dequeueTail st).1 + 1 = bMeasure n st ∧
    (dequeueTail st).1.done = st.done ∧
    (QmemE n st (fun _ => False) →
      QmemE n (dequeueTail st).1 (fun q => q = (dequeueTail st).2)) := by
  have htl : st.queueTail < st.queueHead := lt_of_le_of_ne hI.tail_le hne
  have hQn := numQueued_le n st
  have hhn : st.queueHead ≤ n := le_trans hI.head_le hQn
  have hnw : ¬ (st.queueTail + 1 = st.queue.size) := by
    rw [hI.qsize]; omega
  have hseg := hI.seg st.queueTail le_rfl htl
  have htail' : (dequeueTail st).1.queueTail = st.queueTail + 1 := by
    show (if st.queueTail + 1 = st.queue.size then 0 else st.queueTail + 1)
      = st.queueTail + 1
    rw [if_neg hnw]
  have hdone : (dequeueTail st).1.done = st.done := rfl
  have hdata : (dequeueTail st).1.data = st.data := rfl
  have hqueue : (dequeueTail st).1.queue = st.queue := rfl
  have hhead : (dequeueTail st).1.queueHead = st.queueHead := rfl
  have hp2 : (dequeueTail st).2 = st.queue.getD st.queueTail 0 := rfl
  have hnum : numQueued n (dequeueTail st).1 = numQueued n st := by
    unfold numQueued
    rw [hdone]
  refine ⟨by rw [hp2]; exact hseg.1, ⟨?_, ?_, ?_, ?_, ?_, ?_⟩, ?_, hdone, ?_⟩
  · rw [hqueue]; exact hI.qsize
  · rw [hdone]; exact hI.dsize
  · rw [hdata]; exact hI.datasize
  · rw [htail', hhead]; omega
  · rw [hhead, hnum]; exact hI.head_le
  · intro i h1 h2
    rw [htail'] at h1
    rw [hhead] at h2
    rw [hqueue, hdone]
    exact hI.seg i (by omega) h2
  · unfold bMeasure
    rw [hnum, htail', hhead]
    omega
  · intro hQ q hqn hqq
    rw [hdone] at hqq
    rcases hQ q hqn hqq with hc | hc | hc
    · exact Or.inl (by rw [hdone]; exact hc)
    · obtain ⟨i, h1, h2, h3⟩ := hc
      by_cases hit : i = st.queueTail
      · subst hit
        refine Or.inr (Or.inr ?_)
        rw [hp2, ← h3]
      · refine Or.inr (Or.inl ⟨i, ?_, ?_, ?_⟩)
        · rw [htail']; omega
        · rw [hhead]; exact h2
        · rw [hqueue]; exact h3
    · exact absurd hc (by simp)

theorem dequeueHead_spec (n : ℕ) (st : BState) (hI : BInv0 n st)
    (htl : st.queueTail < st.queueHead) :
    (dequeueHead st).2 < n ∧
    BInv0 n (dequeueHead st).1 ∧
    bMeasure n (dequeueHead st).1 + 1 = bMeasure n st ∧
    (dequeueHead st).1.done = st.done ∧
    (QmemE n st (fun _ => False) →
      QmemE n (dequeueHead st).1 (fun q => q = (dequeueHead st).2)) := by
  have hh0 : st.queueHead ≠ 0 := by omega
  have hhead' : (dequeueHead st).1.queueHead = st.queueHead - 1 := by
    show (if st.queueHead = 0 then st.queue.size else st.queueHead) - 1
      = st.queueHead - 1
    rw [if_neg hh0]
  have hdone : (dequeueHead st).1.done = st.done := rfl
  have hdata : (dequeueHead st).1.data = st.data := rfl
  have hqueue : (dequeueHead st).1.queue = st.queue := rfl
  have htail : (dequeueHead st).1.queueTail = st.queueTail := rfl
  have hp2 : (dequeueHead st).2 = st.queue.getD
      ((if st.queueHead = 0 then st.queue.size else st.queueHead) - 1) 0 := rfl
  have hp2' : (dequeueHead st).2 = st.queue.getD (st.queueHead - 1) 0 := by
    rw [hp2, if_neg hh0]
  have hseg := hI.seg (st.queueHead - 1) (by omega) (by omega)
  have hnum : numQueued n (dequeueHead st).1 = numQueued n st := by
    unfold numQueued
    rw [hdone]
  refine ⟨by rw [hp2']; exact hseg.1, ⟨?_, ?_, ?_, ?_, ?_, ?_⟩, ?_, hdone, ?_⟩
  · rw [hqueue]; exact hI.qsize
  · rw [hdone]; exact hI.dsize
  · rw [hdata]; exact hI.datasize
  · rw [htail, hhead']; omega
  · rw [hhead', hnum]
    exact le_trans (by omega) hI.head_le
  · intro i h1 h2
    rw [htail] at h1
    rw [hhead'] at h2
    rw [hqueue, hdone]
    exact hI.seg i h1 (by omega)
  · unfold bMeasure
    rw [hnum, htail, hhead']
    have := hI.tail_le
    omega
  · intro hQ q hqn hqq
    rw [hdone] at hqq
    rcases hQ q hqn hqq with hc | hc | hc
    · exact Or.inl (by rw [hdone]; exact hc)
    · obtain ⟨i, h1, h2, h3⟩ := hc
      by_cases hit : i = st.queueHead - 1
      · subst hit
        refine Or.inr (Or.inr ?_)
        rw [hp2', ← h3]
      · refine Or.inr (Or.inl ⟨i, ?_, ?_, ?_⟩)
        · rw [htail]; exact h1
        · rw [hhead']; omega
        · rw [hqueue]; exact h3
    · exact absurd hc (by simp)

theorem drainStep_spec (w h : ℕ) (f : ℕ → ℕ) (st : BState) (flag : ℕ)
    (hI : BInv0 (w * h) st) (hQ : QmemE (w * h) st (fun _ => False))
    (hne : st.queueTail ≠ st.queueHead) :
    BInv0 (w * h) (drainStep w h f st flag).1 ∧
    QmemE (w * h) (drainStep w h f st flag).1 (fun _ => False) ∧
    bMeasure (w * h) (drainStep w h f st flag).1 < bMeasure (w * h) st ∧
    doneLe st (drainStep w h f st flag).1 := by
  have htl : st.queueTail < st.queueHead := lt_of_le_of_ne hI.tail_le hne
  by_cases hc1 : st.queueHead ≤ st.queueTail
  · omega
  · have hfifo : ∀ (fl : ℕ),
        BInv0 (w * h) (scan w h f (dequeueTail st).1 (dequeueTail st).2) ∧
        QmemE (w * h) (scan w h f (dequeueTail st).1 (dequeueTail st).2)
          (fun _ => False) ∧
        bMeasure (w * h) (scan w h f (dequeueTail st).1 (dequeueTail st).2)
          < bMeasure (w * h) st ∧
        doneLe st (scan w h f (dequeueTail st).1 (dequeueTail st).2) := by
      intro _
      obtain ⟨hpn, hI1, hm1, hd1, hq1⟩ := dequeueTail_spec (w * h) st hI hne
      have hS := scan_stepOK w h f (dequeueTail st).1 (dequeueTail st).2 hpn
      refine ⟨hS.1 hI1, ?_, ?_, ?_⟩
      · exact scan_qmem w h f (dequeueTail st).1 (dequeueTail st).2 hpn hI1 (hq1 hQ)
      · have := hS.2.2.1 hI1
        omega
      · have hd0 : doneLe st (dequeueTail st).1 := by
          intro q
          rw [hd1]
          exact ⟨id, id⟩
        exact doneLe_trans hd0 hS.2.2.2.1
    have hlifo :
        BInv0 (w * h) (scan w h f (dequeueHead st).1 (dequeueHead st).2) ∧
        QmemE (w * h) (scan w h f (dequeueHead st).1 (dequeueHead st).2)
          (fun _ => False) ∧
        bMeasure (w * h) (scan w h f (dequeueHead st).1 (dequeueHead st).2)
          < bMeasure (w * h) st ∧
        doneLe st (scan w h f (dequeueHead st).1 (dequeueHead st).2) := by
      obtain ⟨hpn, hI1, hm1, hd1, hq1⟩ := dequeueHead_spec (w * h) st hI htl
      have hS := scan_stepOK w h f (dequeueHead st).1 (dequeueHead st).2 hpn
      refine ⟨hS.1 hI1, ?_, ?_, ?_⟩
      · exact scan_qmem w h f (dequeueHead st).1 (dequeueHead st).2 hpn hI1 (hq1 hQ)
      · have := hS.2.2.1 hI1
        omega
      · have hd0 : doneLe st (dequeueHead st).1 := by
          intro q
          rw [hd1]
          exact ⟨id, id⟩
        exact doneLe_trans hd0 hS.2.2.2.1
    by_cases hc2 : (flag + 1) % 4 ≠ 0
    · rw [drainStep]
      simp only [if_neg hc1, if_pos hc2]
      exact hfifo (flag + 1)
    · rw [drainStep]
      simp only [if_neg hc1, if_neg hc2]
      exact hlifo

theorem drainStep_flag (w h : ℕ) (f : ℕ → ℕ) (st : BState) (flag : ℕ)
    (hI : BInv0 (w * h) st) (hne : st.queueTail ≠ st.queueHead) :
    (drainStep w h f st flag).2 = flag + 1 := by
  have htl : st.queueTail < st.queueHead := lt_of_le_of_ne hI.tail_le hne
  have hc1 : ¬ (st.queueHead ≤ st.queueTail) := by omega
  by_cases hc2 : (flag + 1) % 4 ≠ 0
  · rw [drainStep]
    simp only [if_neg hc1, if_pos hc2]
  · rw [drainStep]
    simp only [if_neg hc1, if_neg hc2]

theorem drainLoop_spec (w h : ℕ) (f : ℕ → ℕ) :
    ∀ (fuel : ℕ) (st : BState) (flag : ℕ),
    BInv0 (w * h) st → QmemE (w * h) st (fun _ => False) →
    bMeasure (w * h) st ≤ fuel →
    BInv0 (w * h) (drainLoop w h f fuel st flag) ∧
    (drainLoop w h f fuel st flag).queueTail
      = (drainLoop w h f fuel st flag).queueHead ∧
    QmemE (w * h) (drainLoop w h f fuel st flag) (fun _ => False) ∧
    doneLe st (drainLoop w h f fuel st flag) := by
  intro fuel
  induction fuel with
  | zero =>
    intro st flag hI hQ hm
    have h1 := hI.tail_le
    have hz : st.queueTail = st.queueHead := by
      unfold bMeasure at hm
      omega
    exact ⟨hI, by rw [drainLoop]; exact hz, hQ, doneLe_refl st⟩
  | succ fl ih =>
    intro st flag hI hQ hm
    by_cases hne : st.queueTail = st.queueHead
    · rw [drainLoop, if_pos hne]
      exact ⟨hI, hne, hQ, doneLe_refl st⟩
    · rw [drainLoop, if_neg hne]
      obtain ⟨hI', hQ', hm', hd'⟩ := drainStep_spec w h f st flag hI hQ hne
      obtain ⟨a1, a2, a3, a4⟩ := ih (drainStep w h f st flag).1
        (drainStep w h f st flag).2 hI' hQ' (by omega)
      exact ⟨a1, a2, a3, doneLe_trans hd' a4⟩

/-!
### Seeding and forward fill
-/

theorem default_flags_queued : (default : Flags).queued = false := rfl

theorem default_flags_loaded : (default : Flags).loaded = false := rfl

theorem initState_done_getD (w h p : ℕ) :
    (initState w h).done.getD p default = default := by
  show (Array.mkArray (w * h) (default : Flags)).getD p default = default
  rcases Nat.lt_or_ge p (w * h) with hp | hp
  · rw [Array.getD, dif_pos (by rw [Array.size_mkArray]; exact hp)]
    simp [Array.getElem_mkArray]
  · rw [Array.getD, dif_neg (by rw [Array.size_mkArray]; omega)]

theorem initState_inv (w h : ℕ) : BInv0 (w * h) (initState w h) := by
  refine ⟨?_, ?_, ?_, le_refl 0, Nat.zero_le _, ?_⟩
  · show (Array.mkArray (w * h + 1) 0).size = w * h + 1
    rw [Array.size_mkArray]
  · show (Array.mkArray (w * h) (default : Flags)).size = w * h
    rw [Array.size_mkArray]
  · show (Array.mkArray (w * h) 0).size = w * h
    rw [Array.size_mkArray]
  · intro i h1 h2
    exact absurd (lt_of_le_of_lt h1 h2) (by show ¬ (0 < 0); omega)

theorem initState_qmem (w h : ℕ) :
    QmemE (w * h) (initState w h) (fun _ => False) := by
  intro p hp hq
  rw [initState_done_getD, default_flags_queued] at hq
  exact absurd hq (by simp)

theorem seed_add (n : ℕ) (st : BState) (p : ℕ) (hp : p < n)
    (H : BInv0 n st ∧ QmemE n st (fun _ => False)) :
    BInv0 n (addQueue st p) ∧ QmemE n (addQueue st p) (fun _ => False) :=
  ⟨(addQueue_stepOK n st p hp).1.1 H.1,
   (addQueue_stepOK n st p hp).1.2.2.2.2 _ H.1 H.2⟩

theorem pixel_index_lt {w h x y : ℕ} (hy : y < h) (hx : x < w) :
    y * w + x < w * h := by
  have h1 : (y + 1) * w ≤ h * w := Nat.mul_le_mul_right w hy
  have h2 : y * w + w = (y + 1) * w := by ring
  have h3 : h * w = w * h := Nat.mul_comm h w
  omega

theorem seedQueue_spec (w h : ℕ) (hw : 0 < w) (hh : 0 < h) :
    BInv0 (w * h) (seedQueue w h (initState w h)) ∧
    QmemE (w * h) (seedQueue w h (initState w h)) (fun _ => False) := by
  unfold seedQueue
  apply foldl_induction (P := fun st =>
    BInv0 (w * h) st ∧ QmemE (w * h) st (fun _ => False))
  · apply foldl_induction (P := fun st =>
      BInv0 (w * h) st ∧ QmemE (w * h) st (fun _ => False))
    · exact ⟨initState_inv w h, initState_qmem w h⟩
    · intro st y hy hst
      have hy' : y < h := List.mem_range.mp hy
      exact seed_add _ _ _ (pixel_index_lt hy' (by omega))
        (seed_add _ _ _ (pixel_index_lt hy' hw) hst)
  · intro st x hx hst
    have hx' : 1 ≤ x ∧ x < 1 + (w - 2) := List.mem_range'_1.mp hx
    have hxw : x < w := by omega
    exact seed_add _ _ _ (pixel_index_lt (by omega) hxw)
      (seed_add _ _ _ (pixel_index_lt hh hxw) hst)

theorem seedQueue_zero_queued (w h : ℕ) (hw : 0 < w) (hh : 0 < h) :
    ((seedQueue w h (initState w h)).done.getD 0 default).queued = true := by
  obtain ⟨h2, rfl⟩ : ∃ h2, h = h2 + 1 := ⟨h - 1, by omega⟩
  unfold seedQueue
  apply foldl_induction (P := fun st : BState =>
    (st.done.getD 0 default).queued = true)
  · rw [List.range_succ_eq_map, List.foldl_cons]
    apply foldl_induction (P := fun st : BState =>
      (st.done.getD 0 default).queued = true)
    · apply addQueue_queued_mono
      have h00 : (0 : ℕ) * w + 0 = 0 := by omega
      rw [h00]
      exact (addQueue_stepOK (w * (h2 + 1)) (initState w (h2 + 1)) 0
        (Nat.mul_pos hw (Nat.succ_pos h2))).2 (initState_inv w (h2 + 1))
    · intro b a _ hb
      exact addQueue_queued_mono _ _ _ (addQueue_queued_mono _ _ _ hb)
  · intro b a _ hb
    exact addQueue_queued_mono _ _ _ (addQueue_queued_mono _ _ _ hb)

theorem fillStep_done_size (st : BState) (p : ℕ) :
    (fillStep st p).done.size = st.done.size := by
  rw [fillStep]
  split
  · show (st.done.setD (p + 1) _).size = st.done.size
    rw [Array.size_setD]
  · rfl

theorem fillStep_loaded_mono (st : BState) (p q : ℕ)
    (hq : (st.done.getD q default).loaded = true) :
    ((fillStep st p).done.getD q default).loaded = true := by
  rw [fillStep]
  split
  · show ((st.done.setD (p + 1)
      { st.done.getD (p + 1) default with loaded := true }).getD q default).loaded = true
    by_cases hpq : p + 1 = q
    · subst hpq
      by_cases hs : p + 1 < st.done.size
      · rw [getD_setD_self _ _ _ hs]
      · rw [setD_oob _ _ (by omega)]
        exact hq
    · rw [getD_setD_ne _ _ _ hpq]
      exact hq
  · exact hq

theorem fillStep_sets (st : BState) (p : ℕ)
    (hA : (st.done.getD p default).loaded = true) (hs : p + 1 < st.done.size) :
    ((fillStep st p).done.getD (p + 1) default).loaded = true := by
  by_cases hcond : (st.done.getD p default).loaded = true ∧
      ¬ ((st.done.getD (p + 1) default).loaded = true)
  · rw [fillStep, if_pos hcond]
    show ((st.done.setD (p + 1)
      { st.done.getD (p + 1) default with loaded := true }).getD (p + 1) default).loaded
        = true
    rw [getD_setD_self _ _ _ hs]
  · rw [fillStep, if_neg hcond]
    by_cases hB : (st.done.getD (p + 1) default).loaded = true
    · exact hB
    · exact absurd ⟨hA, hB⟩ hcond

theorem forwardFill_all_loaded (n : ℕ) (st : BState) (hsz : st.done.size = n)
    (h0 : (st.done.getD 0 default).loaded = true) :
    ∀ p, p < n → ((forwardFill n st).done.getD p default).loaded = true := by
  have key : ∀ m, m ≤ n - 1 →
      ((List.range m).foldl fillStep st).done.size = n ∧
      ∀ q, q ≤ m →
        ((((List.range m).foldl fillStep st)).done.getD q default).loaded = true := by
    intro m
    induction m with
    | zero =>
      intro _
      refine ⟨hsz, fun q hq => ?_⟩
      have : q = 0 := by omega
      subst this
      exact h0
    | succ m2 ih =>
      intro hm
      obtain ⟨ihsz, ihload⟩ := ih (by omega)
      rw [List.range_succ, List.foldl_append, List.foldl_cons, List.foldl_nil]
      refine ⟨by rw [fillStep_done_size]; exact ihsz, fun q hq => ?_⟩
      by_cases hq2 : q = m2 + 1
      · subst hq2
        exact fillStep_sets _ m2 (ihload m2 le_rfl) (by rw [ihsz]; omega)
      · exact fillStep_loaded_mono _ m2 q (ihload q (by omega))
  intro p hp
  rw [forwardFill]
  exact (key (n - 1) le_rfl).2 p (by omega)

/-- **C6** — For every viewport, after the Border-tracing kernel's
`compute()` returns (queue drain followed by the row-major forward-fill
pass), every pixel of the tile has its LOADED bit set: no pixel is left
completely unfilled. -/
theorem borderCompute_all_loaded (vp : Viewport) (p : ℕ)
    (hp : p < vp.width * vp.height) :
    (((borderCompute vp).done.getD p default)).loaded = true := by
  rw [borderCompute]
  generalize pixelFun vp = f
  set w := vp.width
  set h := vp.height
  have hw : 0 < w := width_pos hp
  have hh : 0 < h := by
    rcases Nat.eq_zero_or_pos h with h0 | h0
    · rw [h0, Nat.mul_zero] at hp
      exact absurd hp (by omega)
    · exact h0
  obtain ⟨hIs, hQs⟩ := seedQueue_spec w h hw hh
  have hm := bMeasure_le (w * h) (seedQueue w h (initState w h)) hIs
  obtain ⟨hId, hEmpty, hQd, hDone⟩ := drainLoop_spec w h f (2 * (w * h) + 1)
    (seedQueue w h (initState w h)) 0 hIs hQs (by omega)
  have hq0 : ((drainLoop w h f (2 * (w * h) + 1) (seedQueue w h (initState w h))
      0).done.getD 0 default).queued = true :=
    (hDone 0).1 (seedQueue_zero_queued w h hw hh)
  have hl0 : ((drainLoop w h f (2 * (w * h) + 1) (seedQueue w h (initState w h))
      0).done.getD 0 default).loaded = true := by
    rcases hQd 0 (by omega) hq0 with hc | hc | hc
    · exact hc
    · obtain ⟨i, h1, h2, _⟩ := hc
      rw [hEmpty] at h1
      omega
    · exact absurd hc (by simp)
  rw [borderComputeCore]
  exact forwardFill_all_loaded (w * h) _ hId.dsize hl0 p hp

/-- Witness for `borderCompute_all_loaded`: on a 2×2 viewport, pixel 0 is
LOADED after `compute()`. -/
theorem borderCompute_all_loaded_witness :
    (((borderCompute (mkViewport 2 2)).done.getD 0 default)).loaded = true :=
  borderCompute_all_loaded (mkViewport 2 2) 0 (by decide)

theorem drainState_invariant (w h : ℕ) (f : ℕ → ℕ) (hw : 0 < w) (hh : 0 < h) :
    ∀ k, BInv0 (w * h) (drainState w h f k).1 ∧
      QmemE (w * h) (drainState w h f k).1 (fun _ => False) ∧
      ((drainState w h f k).1.queueTail ≠ (drainState w h f k).1.queueHead →
        (drainState w h f k).2 = k) := by
  intro k
  induction k with
  | zero =>
    exact ⟨(seedQueue_spec w h hw hh).1, (seedQueue_spec w h hw hh).2, fun _ => rfl⟩
  | succ k2 ih =>
    obtain ⟨hI, hQ, hflag⟩ := ih
    have hstep : drainState w h f (k2 + 1) = drainIter w h f (drainState w h f k2) := by
      rw [drainState, drainState, Function.iterate_succ_apply']
    by_cases hne : (drainState w h f k2).1.queueTail = (drainState w h f k2).1.queueHead
    · have heq : drainState w h f (k2 + 1) = drainState w h f k2 := by
        rw [hstep, drainIter, if_pos hne]
      rw [heq]
      exact ⟨hI, hQ, fun hcon => absurd hne hcon⟩
    · have heq : drainState w h f (k2 + 1)
          = drainStep w h f (drainState w h f k2).1 (drainState w h f k2).2 := by
        rw [hstep, drainIter, if_neg hne]
      obtain ⟨hI', hQ', _, _⟩ := drainStep_spec w h f _ _ hI hQ hne
      refine ⟨by rw [heq]; exact hI', by rw [heq]; exact hQ', fun _ => ?_⟩
      rw [heq, drainStep_flag w h f _ _ hI hne, hflag hne]

/-- **C7** — In the Border-tracing kernel's queue-drain loop, whenever the
queue is non-empty at the start of iteration k (counting from 0), the flag
counter equals the number of dequeues performed so far, and that iteration
dequeues from the head exactly when the incremented counter masked by 3 is
zero — i.e. every 4th dequeue is from the head (LIFO) and the rest are from
the tail (FIFO). -/
theorem drain_dequeue_policy (w h : ℕ) (f : ℕ → ℕ) (k : ℕ)
    (hw : 0 < w) (hh : 0 < h)
    (hne : (drainState w h f k).1.queueTail ≠ (drainState w h f k).1.queueHead) :
    (drainState w h f k).2 = k ∧
    takesFromHead (drainState w h f k).1 (drainState w h f k).2
      = decide ((k + 1) % 4 = 0) := by
  obtain ⟨hI, _, hflag⟩ := drainState_invariant w h f hw hh k
  have hf := hflag hne
  refine ⟨hf, ?_⟩
  rw [takesFromHead, if_neg (by have := hI.tail_le; omega), hf]

/-- Witness for `drain_dequeue_policy`: iteration 0 on a 2×2 tile (queue
seeded with the 4 border pixels) dequeues from the tail. -/
theorem drain_dequeue_policy_witness :
    (drainState 2 2 (fun _ => 0) 0).2 = 0 ∧
    takesFromHead (drainState 2 2 (fun _ => 0) 0).1
      (drainState 2 2 (fun _ => 0) 0).2 = decide ((0 + 1) % 4 = 0) :=
  drain_dequeue_policy 2 2 (fun _ => 0) 0 (by decide) (by decide) (by decide)

/-- **C10** — Ring-buffer safety of the border-tracing queue: at every
iteration of the drain loop, at most width*height pixels carry the QUEUED
bit (each pixel is enqueued at most once, because `addQueue` skips queued
pixels and the bit is never cleared), the cursors satisfy
queueTail ≤ queueHead < queue.size (every queue access is in bounds), and
enqueuing any fresh pixel never wraps the head cursor onto the tail. -/
theorem queue_safety (w h : ℕ) (f : ℕ → ℕ) (k : ℕ) (hw : 0 < w) (hh : 0 < h) :
    (drainState w h f k).1.queueTail ≤ (drainState w h f k).1.queueHead ∧
    (drainState w h f k).1.queueHead ≤ numQueued (w * h) (drainState w h f k).1 ∧
    numQueued (w * h) (drainState w h f k).1 ≤ w * h ∧
    (drainState w h f k).1.queueHead < (drainState w h f k).1.queue.size ∧
    (drainState w h f k).1.queueTail < (drainState w h f k).1.queue.size ∧
    (∀ p, p < w * h →
      ((drainState w h f k).1.done.getD p default).queued = false →
      (addQueue (drainState w h f k).1 p).queueHead
          ≠ (addQueue (drainState w h f k).1 p).queueTail ∧
      (addQueue (drainState w h f k).1 p).queueHead
          < (addQueue (drainState w h f k).1 p).queue.size) := by
  obtain ⟨hI, _, _⟩ := drainState_invariant w h f hw hh k
  have h1 := hI.tail_le
  have h2 := hI.head_le
  have h3 := numQueued_le (w * h) (drainState w h f k).1
  have h4 := hI.qsize
  refine ⟨h1, h2, h3, by omega, by omega, ?_⟩
  intro p hp hq
  have hhead := addQueue_fresh_head hI hp hq
  have htail := addQueue_tail (drainState w h f k).1 p
  have hQlt := numQueued_lt_of_unqueued hp hq
  have hqs : (addQueue (drainState w h f k).1 p).queue.size
      = (drainState w h f k).1.queue.size := by
    rw [addQueue_fresh_queue hq, Array.size_setD]
  constructor
  · rw [hhead, htail]
    omega
  · rw [hhead, hqs, h4]
    omega

/-- Witness for `queue_safety`: the seeded 2×2 state has its cursors in
order. -/
theorem queue_safety_witness :
    (drainState 2 2 (fun _ => 0) 0).1.queueTail
      ≤ (drainState 2 2 (fun _ => 0) 0).1.queueHead :=
  (queue_safety 2 2 (fun _ => 0) 0 (by decide) (by decide)).1

theorem vp5_width : vp5.width = 5 := rfl

theorem vp5_height : vp5.height = 5 := rfl

theorem vp5_minr : vp5.minr = -(61/10) := rfl

theorem vp5_mini : vp5.mini = -8 := rfl

theorem vp5_stepr : vp5.stepr = 4 := by
  show (139/10 - -(61/10)) / ((5 : ℕ) : ℚ) = 4
  norm_num

theorem vp5_stepi : vp5.stepi = 4 := by
  show ((12 : ℚ) - -8) / ((5 : ℕ) : ℚ) = 4
  norm_num

theorem iterate_19_10 : iterate (19/10) 0 = 1 := by
  rw [iterate, MAX_ITER, show (768 : ℕ) = 767 + 1 from rfl, iterGo_succ,
    if_neg (by norm_num)]
  have ha : (19/10 : ℚ) * (19/10) - 0 * 0 + 19/10 = 551/100 := by norm_num
  have hb : (19/10 : ℚ) * 0 + (19/10) * 0 + 0 = 0 := by norm_num
  rw [ha, hb, show (767 : ℕ) = 766 + 1 from rfl, iterGo_succ,
    if_pos (by norm_num)]

/-- The pixel table of `vp5`: every pixel escapes immediately except the
centre pixel 12 = (2,2), which escapes after one iteration. -/
theorem pixelFun_vp5 (p : ℕ) : pixelFun vp5 p = if p = 12 then 1 else 0 := by
  rw [pixelFun, vp5_width, vp5_minr, vp5_stepr, vp5_mini, vp5_stepi]
  have hx5 : p % 5 < 5 := Nat.mod_lt _ (by omega)
  by_cases hy2 : p / 5 = 2
  · rw [hy2]
    by_cases hx2 : p % 5 = 2
    · have hp12 : p = 12 := by omega
      rw [hx2, hp12, if_pos rfl]
      have hc : (-(61/10) : ℚ) + ((2 : ℕ) : ℚ) * 4 = 19/10 := by norm_num
      have hd : (-8 : ℚ) + ((2 : ℕ) : ℚ) * 4 = 0 := by norm_num
      rw [hc, hd, iterate_19_10]
    · rw [if_neg (by omega)]
      have hd : (-8 : ℚ) + ((2 : ℕ) : ℚ) * 4 = 0 := by norm_num
      rw [hd]
      set x := p % 5 with hxdef
      interval_cases x
      · exact iterate_eq_zero_of_escape _ _ (by norm_num)
      · exact iterate_eq_zero_of_escape _ _ (by norm_num)
      · exact absurd rfl hx2
      · exact iterate_eq_zero_of_escape _ _ (by norm_num)
      · exact iterate_eq_zero_of_escape _ _ (by norm_num)
  · rw [if_neg (by omega)]
    apply iterate_eq_zero_of_escape
    set cx : ℚ := -(61/10) + ((p % 5 : ℕ) : ℚ) * 4 with hcx
    set y := p / 5 with hydef
    have hsq : (0 : ℚ) ≤ cx * cx := mul_self_nonneg cx
    rcases Nat.lt_or_ge y 2 with hylt | hyge
    · have hyq : ((y : ℕ) : ℚ) ≤ 1 := by
        have : y ≤ 1 := by omega
        exact_mod_cast this
      have hcy : (-8 : ℚ) + ((y : ℕ) : ℚ) * 4 ≤ -4 := by nlinarith
      nlinarith
    · have hy3 : 3 ≤ y := by omega
      have hyq : (3 : ℚ) ≤ ((y : ℕ) : ℚ) := by exact_mod_cast hy3
      have hcy : (4 : ℚ) ≤ (-8 : ℚ) + ((y : ℕ) : ℚ) * 4 := by nlinarith
      nlinarith

/-- **C1 (counterexample)** — The claim that the Standard, SIMD and
Border-tracing kernels produce identical iteration-count arrays for every
viewport is false: on the 5×5 viewport `vp5`, the Border-tracing kernel's
buffer differs from the Standard kernel's buffer (underneath, the Border
kernel forward-fills pixel 12 with 0 while its true escape count is 1). -/
theorem borderCompute_ne_standardCompute_5x5 :
    (borderCompute vp5).data ≠ standardCompute vp5 := by
  have hkey : borderComputeCore vp5.width vp5.height (pixelFun vp5)
      = borderComputeCore 5 5 (fun p => if p = 12 then 1 else 0) := by
    rw [vp5_width, vp5_height]
    congr 1
    funext p
    exact pixelFun_vp5 p
  intro hcontra
  have h1 : (borderCompute vp5).data.getD 12 0 = 0 := by
    rw [borderCompute, hkey]
    set_option maxRecDepth 20000 in decide
  have h2 : (standardCompute vp5).getD 12 0 = 1 := by
    rw [standardCompute_getD vp5 12 (by rw [vp5_width, vp5_height]; omega),
      pixelFun_vp5]
    rfl
  rw [hcontra, h2] at h1
  exact absurd h1 (by omega)

theorem laneStep_frozen (l : Lane) (h : l.mask = false) : laneStep l = l := by
  cases l
  simp only [laneStep] at *
  simp [h]

theorem laneStep_iterate_frozen (l : Lane) (h : l.mask = false) :
    ∀ n, laneStep^[n] l = l := by
  intro n
  induction n with
  | zero => rfl
  | succ m ih =>
    rw [Function.iterate_succ_apply, laneStep_frozen l h]
    exact ih

/-- A live lane runs exactly the scalar escape loop: after `fuel` inner
iterations its counter has advanced by `iterGo cr ci fuel zr zi`. -/
theorem laneGo_eq (cr ci : ℚ) : ∀ (fuel : ℕ) (r i : ℚ) (k : ℕ),
    (laneStep^[fuel]
      { cr := cr, ci := ci, zr := r, zi := i, iters := k, mask := true }).iters
      = k + iterGo cr ci fuel r i := by
  intro fuel
  induction fuel with
  | zero => intro r i k; rfl
  | succ fl ih =>
    intro r i k
    rw [Function.iterate_succ_apply]
    by_cases hesc : (4 : ℚ) ≤ r * r + i * i
    · have hfrozen : laneStep
          { cr := cr, ci := ci, zr := r, zi := i, iters := k, mask := true }
          = { cr := cr, ci := ci, zr := r, zi := i, iters := k, mask := false } := by
        simp [laneStep, hesc]
      rw [hfrozen, laneStep_iterate_frozen _ rfl, iterGo_succ, if_pos hesc]
      simp
    · have hstep : laneStep
          { cr := cr, ci := ci, zr := r, zi := i, iters := k, mask := true }
          = { cr := cr, ci := ci, zr := r * r - i * i + cr, zi := r * i + r * i + ci,
              iters := k + 1, mask := true } := by
        simp [laneStep, hesc]
      rw [hstep, ih, iterGo_succ, if_neg hesc]
      omega

/-- The collective early exit does not change any lane's result: the batch
loop equals the per-lane iteration. -/
theorem batchLoop_eq_map : ∀ (fuel : ℕ) (lanes : List Lane),
    batchLoop fuel lanes = lanes.map (fun l => laneStep^[fuel] l) := by
  intro fuel
  induction fuel with
  | zero =>
    intro lanes
    rw [batchLoop]
    simp
  | succ fl ih =>
    intro lanes
    rw [batchLoop]
    have hsucc : (fun l => laneStep^[fl + 1] l)
        = fun l => laneStep^[fl] (laneStep l) :=
      funext fun l => by rw [Function.iterate_succ_apply]
    by_cases hall : ((lanes.map laneStep).all fun l => !l.mask) = true
    · rw [if_pos hall, hsucc, show (fun l => laneStep^[fl] (laneStep l))
        = (fun l => laneStep^[fl] l) ∘ laneStep from rfl, ← List.map_map]
      have hfro : ∀ l ∈ lanes.map laneStep, laneStep^[fl] l = l := by
        intro l hl
        apply laneStep_iterate_frozen
        have := List.all_eq_true.mp hall l hl
        simp at this
        exact this
      exact ((List.map_congr_left hfro).trans (List.map_id _)).symm
    · rw [if_neg hall, ih, List.map_map, hsucc]
      rfl

/-- The final counter of live lane i equals the scalar kernel's value for
pixel column x + i. -/
theorem simd_lane_value (minr stepr cy : ℚ) (x curBatch i : ℕ)
    (hi : i < curBatch) (hi8 : i < 8) :
    ((batchLoop MAX_ITER
      ((List.range 8).map (mkLane minr stepr cy x curBatch))).getD i default).iters
      = iterate (minr + ((x + i : ℕ) : ℚ) * stepr) cy := by
  rw [batchLoop_eq_map, List.map_map]
  have hlen : i < (List.map ((fun l => laneStep^[MAX_ITER] l) ∘
      mkLane minr stepr cy x curBatch) (List.range 8)).length := by
    simp [hi8]
  rw [List.getD_eq_getElem _ _ hlen, List.getElem_map, List.getElem_range]
  show (laneStep^[MAX_ITER] (mkLane minr stepr cy x curBatch i)).iters = _
  have hmk : mkLane minr stepr cy x curBatch i
      = { cr := minr + ((x + i : ℕ) : ℚ) * stepr, ci := cy,
          zr := minr + ((x + i : ℕ) : ℚ) * stepr, zi := cy,
          iters := 0, mask := true } := by
    rw [mkLane]
    simp [hi]
  rw [hmk, laneGo_eq, Nat.zero_add, iterate]

theorem setD_fold_size (g : ℕ → ℕ) (base : ℕ) :
    ∀ (c : ℕ) (data : Array ℕ),
      ((List.range c).foldl (fun (d : Array ℕ) (i : ℕ) => d.setD (base + i) (g i))
        data).size = data.size := by
  intro c
  induction c with
  | zero => intro data; rfl
  | succ m ih =>
    intro data
    rw [List.range_succ, List.foldl_append, List.foldl_cons, List.foldl_nil,
      Array.size_setD, ih]

theorem setD_fold_getD (g : ℕ → ℕ) (base : ℕ) :
    ∀ (c : ℕ) (data : Array ℕ) (q : ℕ),
      ((List.range c).foldl (fun (d : Array ℕ) (i : ℕ) => d.setD (base + i) (g i))
        data).getD q 0
      = if base ≤ q ∧ q < base + c ∧ q < data.size then g (q - base)
        else data.getD q 0 := by
  intro c
  induction c with
  | zero =>
    intro data q
    rw [if_neg (by omega)]
    rfl
  | succ m ih =>
    intro data q
    rw [List.range_succ, List.foldl_append, List.foldl_cons, List.foldl_nil]
    by_cases hq : base + m = q
    · subst hq
      by_cases hsz : base + m < data.size
      · have hsz2 : base + m < ((List.range m).foldl
            (fun (d : Array ℕ) (i : ℕ) => d.setD (base + i) (g i)) data).size := by
          rw [setD_fold_size]
          omega
        rw [getD_setD_self _ _ _ hsz2, if_pos ⟨by omega, by omega, hsz⟩,
          show base + m - base = m from by omega]
      · rw [setD_oob _ _ (by rw [setD_fold_size]; omega), ih, if_neg (by omega),
          if_neg (by omega)]
    · rw [getD_setD_ne _ _ _ hq, ih]
      by_cases hin : base ≤ q ∧ q < base + m ∧ q < data.size
      · rw [if_pos hin, if_pos ⟨hin.1, by omega, hin.2.2⟩]
      · rw [if_neg hin, if_neg (fun hcon => hin ⟨hcon.1, by omega, hcon.2.2⟩)]

theorem simdBatchStore_size (vp : Viewport) (y x c : ℕ) (lanes : List Lane)
    (data : Array ℕ) : (simdBatchStore vp y x c lanes data).size = data.size :=
  setD_fold_size (fun i => (lanes.getD i default).iters) (y * vp.width + x) c data

theorem simdBatchStore_getD (vp : Viewport) (y x c : ℕ) (lanes : List Lane)
    (data : Array ℕ) (q : ℕ) :
    (simdBatchStore vp y x c lanes data).getD q 0
      = if y * vp.width + x ≤ q ∧ q < y * vp.width + x + c ∧ q < data.size
        then (lanes.getD (q - (y * vp.width + x)) default).iters
        else data.getD q 0 :=
  setD_fold_getD (fun i => (lanes.getD i default).iters) (y * vp.width + x) c data q

theorem simdRow_aux_size (vp : Viewport) (y : ℕ) :
    ∀ (m : ℕ) (data : Array ℕ),
      (((List.range m).map (· * 8)).foldl
        (fun (data : Array ℕ) (x : ℕ) =>
          let curBatch := min 8 (vp.width - x)
          let lanes := batchLoop MAX_ITER
            ((List.range 8).map (mkLane vp.minr vp.stepr
              (vp.mini + (y : ℚ) * vp.stepi) x curBatch))
          simdBatchStore vp y x curBatch lanes data) data).size = data.size := by
  intro m
  induction m with
  | zero => intro data; rfl
  | succ m2 ih =>
    intro data
    rw [show List.range (m2 + 1) = List.range m2 ++ [m2] from List.range_succ m2,
      List.map_append, List.foldl_append, List.map_cons,
      List.map_nil, List.foldl_cons, List.foldl_nil]
    rw [simdBatchStore_size, ih]

theorem simdRow_aux_getD (vp : Viewport) (y : ℕ) :
    ∀ (m : ℕ), m ≤ (vp.width + 7) / 8 →
    ∀ (data : Array ℕ) (q : ℕ),
      (((List.range m).map (· * 8)).foldl
        (fun (data : Array ℕ) (x : ℕ) =>
          let curBatch := min 8 (vp.width - x)
          let lanes := batchLoop MAX_ITER
            ((List.range 8).map (mkLane vp.minr vp.stepr
              (vp.mini + (y : ℚ) * vp.stepi) x curBatch))
          simdBatchStore vp y x curBatch lanes data) data).getD q 0
      = if y * vp.width ≤ q ∧ q < y * vp.width + min (m * 8) vp.width
            ∧ q < data.size
        then rowVal vp y (q - y * vp.width) else data.getD q 0 := by
  intro m
  induction m with
  | zero =>
    intro _ data q
    rw [if_neg (by omega)]
    rfl
  | succ m2 ih =>
    intro hm data q
    have hm2w : m2 * 8 < vp.width := by
      have h8 : (m2 + 1) * 8 ≤ vp.width + 7 :=
        (Nat.le_div_iff_mul_le (by omega)).mp hm
      omega
    rw [show List.range (m2 + 1) = List.range m2 ++ [m2] from List.range_succ m2,
      List.map_append, List.foldl_append, List.map_cons,
      List.map_nil, List.foldl_cons, List.foldl_nil]
    rw [simdBatchStore_getD, simdRow_aux_size, ih (by omega)]
    by_cases hnew : y * vp.width + m2 * 8 ≤ q
        ∧ q < y * vp.width + m2 * 8 + min 8 (vp.width - m2 * 8) ∧ q < data.size
    · rw [if_pos hnew, if_pos (by omega)]
      have hi8 : q - (y * vp.width + m2 * 8) < 8 := by omega
      have hic : q - (y * vp.width + m2 * 8) < min 8 (vp.width - m2 * 8) := by
        omega
      have hv := simd_lane_value vp.minr vp.stepr
        (vp.mini + (y : ℚ) * vp.stepi) (m2 * 8) (min 8 (vp.width - m2 * 8))
        (q - (y * vp.width + m2 * 8)) hic hi8
      rw [hv, show m2 * 8 + (q - (y * vp.width + m2 * 8)) = q - y * vp.width
        from by omega]
      rfl
    · rw [if_neg hnew]
      by_cases hold : y * vp.width ≤ q ∧ q < y * vp.width + min (m2 * 8) vp.width
          ∧ q < data.size
      · rw [if_pos hold, if_pos (by omega)]
      · rw [if_neg hold, if_neg (by omega)]

theorem simdRow_size (vp : Viewport) (y : ℕ) (data : Array ℕ) :
    (simdRow vp y data).size = data.size :=
  simdRow_aux_size vp y ((vp.width + 7) / 8) data

theorem simdRow_getD (vp : Viewport) (y : ℕ) (data : Array ℕ) (q : ℕ) :
    (simdRow vp y data).getD q 0
      = if y * vp.width ≤ q ∧ q < y * vp.width + vp.width ∧ q < data.size
        then rowVal vp y (q - y * vp.width) else data.getD q 0 := by
  have hcover : min ((vp.width + 7) / 8 * 8) vp.width = vp.width := by
    have hdm := Nat.div_add_mod (vp.width + 7) 8
    have hmod : (vp.width + 7) % 8 < 8 := Nat.mod_lt _ (by omega)
    omega
  have := simdRow_aux_getD vp y ((vp.width + 7) / 8) le_rfl data q
  rw [hcover] at this
  exact this

theorem simdCompute_aux (vp : Viewport) :
    ∀ (m : ℕ) (q : ℕ),
      ((List.range m).foldl (fun (data : Array ℕ) (y : ℕ) => simdRow vp y data)
        (Array.mkArray (vp.width * vp.height) MAX_ITER)).size
        = vp.width * vp.height ∧
      (((List.range m).foldl (fun (data : Array ℕ) (y : ℕ) => simdRow vp y data)
        (Array.mkArray (vp.width * vp.height) MAX_ITER)).getD q 0
        = if q < m * vp.width ∧ q < vp.width * vp.height
          then rowVal vp (q / vp.width) (q - q / vp.width * vp.width)
          else (Array.mkArray (vp.width * vp.height) MAX_ITER).getD q 0) := by
  intro m
  induction m with
  | zero =>
    intro q
    refine ⟨by rw [List.range_zero, List.foldl_nil, Array.size_mkArray], ?_⟩
    rw [List.range_zero, List.foldl_nil, if_neg (by omega)]
  | succ m2 ih =>
    intro q
    rw [List.range_succ, List.foldl_append, List.foldl_cons, List.foldl_nil]
    obtain ⟨ihsz, ihval⟩ := ih q
    refine ⟨by rw [simdRow_size, ihsz], ?_⟩
    rw [simdRow_getD, ihsz, ihval]
    by_cases hnew : m2 * vp.width ≤ q ∧ q < m2 * vp.width + vp.width
        ∧ q < vp.width * vp.height
    · rw [if_pos hnew]
      have hmw : (m2 + 1) * vp.width = m2 * vp.width + vp.width := by ring
      rw [if_pos (by omega)]
      have hdiv : q / vp.width = m2 := by
        have hw : 0 < vp.width := by
          rcases Nat.eq_zero_or_pos vp.width with h0 | h0
          · rw [h0] at hnew
            omega
          · exact h0
        have h1 : q / vp.width ≤ m2 := by
          by_contra hcon
          push_neg at hcon
          have : (m2 + 1) * vp.width ≤ q / vp.width * vp.width :=
            Nat.mul_le_mul_right _ (by omega)
          have h2 := Nat.div_mul_le_self q vp.width
          omega
        have h2 : m2 ≤ q / vp.width := by
          rw [Nat.le_div_iff_mul_le hw]
          omega
        omega
      rw [hdiv]
    · rw [if_neg hnew]
      have hmw : (m2 + 1) * vp.width = m2 * vp.width + vp.width := by ring
      by_cases hold : q < m2 * vp.width ∧ q < vp.width * vp.height
      · rw [if_pos hold, if_pos (by omega)]
      · rw [if_neg hold, if_neg (by omega)]

theorem simdCompute_size (vp : Viewport) :
    (simdCompute vp).size = vp.width * vp.height :=
  (simdCompute_aux vp vp.height 0).1

/-- **C1 (amended)** — For every viewport, the SIMD kernel's masked 8-lane
batched computation produces, pixel for pixel, exactly the same
iteration-count buffer as the Standard kernel's scalar loop. -/
theorem standardCompute_eq_simdCompute (vp : Viewport) :
    standardCompute vp = simdCompute vp := by
  apply Array.ext
  · rw [standardCompute_size, simdCompute_size]
  · intro q h1 h2
    have hq : q < vp.width * vp.height := by
      rw [standardCompute_size] at h1
      exact h1
    have hw : 0 < vp.width := width_pos hq
    rw [← getD_eq_getElem _ _ 0 h1, ← getD_eq_getElem _ _ 0 h2]
    rw [standardCompute_getD vp q hq]
    have hrow : q / vp.width * vp.width ≤ q := by
      have := Nat.div_add_mod q vp.width
      have hc : q / vp.width * vp.width = vp.width * (q / vp.width) :=
        Nat.mul_comm _ _
      omega
    have hrow2 : q < q / vp.width * vp.width + vp.width := by
      have := Nat.div_add_mod q vp.width
      have hc : q / vp.width * vp.width = vp.width * (q / vp.width) :=
        Nat.mul_comm _ _
      have hm := Nat.mod_lt q hw
      omega
    have hqh : q < vp.height * vp.width := by
      rw [Nat.mul_comm]
      exact hq
    have hval := (simdCompute_aux vp vp.height q).2
    rw [show simdCompute vp = (List.range vp.height).foldl
      (fun (data : Array ℕ) (y : ℕ) => simdRow vp y data)
      (Array.mkArray (vp.width * vp.height) MAX_ITER) from rfl, hval,
      if_pos ⟨hqh, hq⟩]
    have hmod : q - q / vp.width * vp.width = q % vp.width := by
      have := Nat.div_add_mod q vp.width
      have hc : q / vp.width * vp.width = vp.width * (q / vp.width) :=
        Nat.mul_comm _ _
      omega
    rw [rowVal, pixelFun, hmod]

end Mandelborder
